import Mathlib

/-!
Verification development for the kako.mn support-bot ingestion/retrieval core
(`src/main.py`).  The Python source is shallowly embedded: Python `float`
arithmetic on histogram values is modelled exactly over `ℚ` (every operation
the source performs on these values — `+`, `-`, `*`, `/`, comparisons — is a
rational operation; the identities proved here are the exact-arithmetic
contents of the corresponding claims), Python strings are modelled as `String`
/ `List Char` (one element per code point, as in Python), Python `list`s as
`List`, and the stateful module globals (`crawled_data`, `crawled_images`,
`crawl_status`) as an explicit state record threaded through the handlers.
Network fetches and third-party parsing/decoding (requests, BeautifulSoup,
PIL) are external collaborators of the core; they enter the model as oracle
parameters (a `fetch` function, an abstract decoded thumbnail), while all the
logic of `main.py` itself is translated directly.
-/

/-! ## Image similarity engine (`main.py` lines 293-319, 363-383) -/

/-- Feature record of a processed image: three 256-bin normalized colour
histograms, as produced by `download_and_save_image` /
`process_user_image_features` (`hist_r`, `hist_g`, `hist_b` keys). -/
structure ImgFeatures where
  hist_r : List ℚ
  hist_g : List ℚ
  hist_b : List ℚ
deriving Repr, DecidableEq

/-- `chi_squared_distance` from `calculate_image_similarity` (main.py 297-302):
`for i in range(len(h1)): if h1[i] + h2[i] > 0: distance += ((h1[i]-h2[i])**2)/(h1[i]+h2[i])`.
The second list is consumed in lockstep with the first; the case of `h2`
running out before `h1` raises `IndexError` in Python and is handled by the
caller's guard (see `calculate_image_similarity`). -/
def chi2 : List ℚ → List ℚ → ℚ
  | a :: as, b :: bs => (if 0 < a + b then (a - b) ^ 2 / (a + b) else 0) + chi2 as bs
  | _, _ => 0

/-- `calculate_image_similarity(img1_features, img2_features)` (main.py 293-319).
Computes the per-channel chi-squared distances, averages them and returns
`1 / (1 + avg_distance)`.  The whole body is wrapped in `try/except` returning
`0.0`; the only exception reachable on well-typed inputs is the `IndexError`
raised when some channel of `img2_features` is shorter than the corresponding
channel of `img1_features`, which the leading guard reproduces. -/
def calculate_image_similarity (f1 f2 : ImgFeatures) : ℚ :=
  if f2.hist_r.length < f1.hist_r.length ∨ f2.hist_g.length < f1.hist_g.length ∨
      f2.hist_b.length < f1.hist_b.length then 0
  else
    let dist_r := chi2 f1.hist_r f2.hist_r
    let dist_g := chi2 f1.hist_g f2.hist_g
    let dist_b := chi2 f1.hist_b f2.hist_b
    1 / (1 + (dist_r + dist_g + dist_b) / 3)

/-- The spec's chi-squared distance: the sum runs over bins "where the bin sum
is nonzero" (spec §4.3), written with the `≠ 0` guard rather than the source's
`> 0` comparison. -/
def chi2Spec : List ℚ → List ℚ → ℚ
  | a :: as, b :: bs => (if a + b ≠ 0 then (a - b) ^ 2 / (a + b) else 0) + chi2Spec as bs
  | _, _ => 0

/-- The spec's distance `d`: average of the three per-channel chi-squared
distances. -/
def specAvgDistance (f1 f2 : ImgFeatures) : ℚ :=
  (chi2Spec f1.hist_r f2.hist_r + chi2Spec f1.hist_g f2.hist_g +
    chi2Spec f1.hist_b f2.hist_b) / 3

/-- A valid feature set: three 256-bin histograms with non-negative bins
(finiteness is automatic over `ℚ`). -/
def ValidFeatures (f : ImgFeatures) : Prop :=
  f.hist_r.length = 256 ∧ f.hist_g.length = 256 ∧ f.hist_b.length = 256 ∧
    (∀ x ∈ f.hist_r, 0 ≤ x) ∧ (∀ x ∈ f.hist_g, 0 ≤ x) ∧ (∀ x ∈ f.hist_b, 0 ≤ x)

/-- All-zero 256-bin feature set (a concrete valid feature set). -/
def zeroFeatures : ImgFeatures :=
  ⟨List.replicate 256 0, List.replicate 256 0, List.replicate 256 0⟩

/-- A crawled, stored image (an element of the `crawled_images` global):
source url, local filename, provenance, and the extracted features. -/
structure StoredImage where
  url : String
  filename : String
  page_url : String
  alt : String
  page_title : String
  feats : ImgFeatures
deriving Repr, DecidableEq

/-- One entry of the list built by `find_similar_crawled_images`
(main.py 371-378): url, similarity, filename, page provenance. -/
structure SimMatch where
  url : String
  similarity : ℚ
  filename : String
  page_url : String
  alt : String
  page_title : String
deriving Repr, DecidableEq

/-- Stable descending insertion by a rational key: the element is placed
before the first entry whose key is not strictly greater, so equal-key
elements keep their original relative order.  Together with
`sortDescBy` this is the unique stable descending sort, which is what
Python's `list.sort(key=..., reverse=True)` computes. -/
def insDescBy (key : α → ℚ) (x : α) : List α → List α
  | [] => [x]
  | y :: ys => if key x < key y then y :: insDescBy key x ys else x :: y :: ys

/-- Stable descending sort by a rational key (model of
`list.sort(key=..., reverse=True)`). -/
def sortDescBy (key : α → ℚ) : List α → List α
  | [] => []
  | x :: xs => insDescBy key x (sortDescBy key xs)

/-- The filtered match list of `find_similar_crawled_images` (main.py 367-378),
in ingestion order: every stored image whose similarity to the query features
reaches the threshold, packaged as a `SimMatch`. -/
def similarMatches (imgs : List StoredImage) (uf : ImgFeatures) (thr : ℚ) : List SimMatch :=
  imgs.filterMap fun im =>
    let s := calculate_image_similarity uf im.feats
    if thr ≤ s then some ⟨im.url, s, im.filename, im.page_url, im.alt, im.page_title⟩ else none

/-- `find_similar_crawled_images(user_image_features, similarity_threshold)`
(main.py 363-383): filter by threshold, sort by similarity descending
(Python's stable sort), return the first 3. -/
def find_similar_crawled_images (imgs : List StoredImage) (uf : ImgFeatures) (thr : ℚ) :
    List SimMatch :=
  (sortDescBy (·.similarity) (similarMatches imgs uf thr)).take 3

/-! ## Histogram extraction (`main.py` lines 252-266 and 334-348) -/

/-- An abstract decoded RGB thumbnail: the list of its pixels, each an
(r, g, b) intensity triple.  PIL's bounding-box `thumbnail` and `histogram`
are external collaborators (spec §6); `Image.histogram()` returns, per
channel, the number of pixels having each of the 256 intensities, which is
what `normHist` counts below. -/
structure Thumb where
  pixels : List (Fin 256 × Fin 256 × Fin 256)

/-- One channel's normalized histogram: PIL's per-intensity pixel counts,
each divided by `total_pixels = thumb.size[0] * thumb.size[1]` (the number of
pixels), exactly as `hist_r = [x/total_pixels for x in hist_r]`
(main.py 263-266 and 345-348). -/
def normHist (channel : List (Fin 256)) : List ℚ :=
  (List.range 256).map fun v =>
    ((channel.countP fun p => p.val == v : ℕ) : ℚ) / (channel.length : ℚ)

/-- Shared feature-extraction tail of `download_and_save_image`
(main.py 252-280) and `process_user_image_features` (main.py 334-357): the
three normalized 256-bin channel histograms of the thumbnail. -/
def image_features (t : Thumb) : ImgFeatures :=
  ⟨normHist (t.pixels.map (·.1)),
   normHist (t.pixels.map (·.2.1)),
   normHist (t.pixels.map (·.2.2))⟩

/-! ## Python string primitives -/

/-- Case-folding table for `str.lower()` covering the alphabets occurring in
`main.py`'s keyword tables and URLs: ASCII `A`–`Z` and the Cyrillic capitals
(`А`–`Я`, `Ё`, and the Mongolian-Cyrillic `Ө`, `Ү`). -/
def lowerPairs : List (Char × Char) :=
  [('A', 'a'), ('B', 'b'), ('C', 'c'), ('D', 'd'), ('E', 'e'), ('F', 'f'),
   ('G', 'g'), ('H', 'h'), ('I', 'i'), ('J', 'j'), ('K', 'k'), ('L', 'l'),
   ('M', 'm'), ('N', 'n'), ('O', 'o'), ('P', 'p'), ('Q', 'q'), ('R', 'r'),
   ('S', 's'), ('T', 't'), ('U', 'u'), ('V', 'v'), ('W', 'w'), ('X', 'x'),
   ('Y', 'y'), ('Z', 'z'),
   ('А', 'а'), ('Б', 'б'), ('В', 'в'), ('Г', 'г'), ('Д', 'д'), ('Е', 'е'),
   ('Ж', 'ж'), ('З', 'з'), ('И', 'и'), ('Й', 'й'), ('К', 'к'), ('Л', 'л'),
   ('М', 'м'), ('Н', 'н'), ('О', 'о'), ('П', 'п'), ('Р', 'р'), ('С', 'с'),
   ('Т', 'т'), ('У', 'у'), ('Ф', 'ф'), ('Х', 'х'), ('Ц', 'ц'), ('Ч', 'ч'),
   ('Ш', 'ш'), ('Щ', 'щ'), ('Ъ', 'ъ'), ('Ы', 'ы'), ('Ь', 'ь'), ('Э', 'э'),
   ('Ю', 'ю'), ('Я', 'я'), ('Ё', 'ё'), ('Ө', 'ө'), ('Ү', 'ү')]

/-- One character of Python's `str.lower()` (restricted to `lowerPairs`;
characters outside the table are fixed points). -/
def pyLowerChar (c : Char) : Char :=
  (((lowerPairs.find? fun p => p.1 == c).map fun p => p.2).getD c)

/-- Python `s.lower()` on a code-point list. -/
def pyLower (l : List Char) : List Char := l.map pyLowerChar

/-- Python's substring test `sub in s`. -/
def pyIn (sub s : List Char) : Bool := decide (sub <:+: s)

/-- Python whitespace for no-argument `str.split()` / `str.strip()`:
space and the ASCII control whitespace `\t \n \v \f \r`. -/
def pyIsSpace (c : Char) : Bool := c == ' ' || (9 ≤ c.toNat && c.toNat ≤ 13)

/-- Accumulator worker for `str.split()`. -/
def wordsOfAux : List Char → List Char → List (List Char)
  | [], acc => if acc = [] then [] else [acc.reverse]
  | c :: cs, acc =>
    if pyIsSpace c then
      if acc = [] then wordsOfAux cs [] else acc.reverse :: wordsOfAux cs []
    else wordsOfAux cs (c :: acc)

/-- Python no-argument `str.split()`: maximal runs of non-whitespace, with no
empty words. -/
def wordsOf (l : List Char) : List (List Char) := wordsOfAux l []

/-- Python `str.strip()`: drop leading and trailing whitespace. -/
def pyStrip (l : List Char) : List Char :=
  ((l.dropWhile pyIsSpace).reverse.dropWhile pyIsSpace).reverse

/-- Index of the first occurrence of `needle` in `hay` (Python `str.find`,
used only under a guard that guarantees an occurrence; returns the length of
`hay` when there is none). -/
def findSub (needle : List Char) : List Char → Nat
  | [] => 0
  | c :: t => if decide (needle <+: c :: t) then 0 else 1 + findSub needle t

/-! ## Product-image classifier (`main.py` lines 133-205) -/

/-- `skip_patterns` (main.py 140-149), the deny-list. -/
def skip_patterns : List String :=
  ["logo", "banner", "header", "footer", "menu", "icon", "button",
   "social", "facebook", "instagram", "twitter", "youtube",
   "avatar", "profile", "user", "author", "team",
   "background", "bg-", "hero", "slider", "carousel",
   "arrow", "chevron", "close", "search", "cart-icon",
   "payment", "visa", "mastercard", "paypal",
   "placeholder", "loading", "spinner", "no-image",
   "about-us", "contact", "location", "map"]

/-- `product_indicators` (main.py 157-174). -/
def product_indicators : List String :=
  ["product", "item", "goods", "merchandise", "catalog",
   "shop", "store", "buy", "sale", "price",
   "thumbnail", "thumb", "gallery", "image",
   "бүтээгдэхүүн", "барааг", "зураг", "зүйл",
   "хувцас", "гутал", "цүнх", "эмэгтэй", "эрэгтэй",
   "зуны", "өвлийн", "хаврын", "намрын",
   "clothing", "shoes", "bag", "watch", "jewelry",
   "electronics", "phone", "laptop", "headphone",
   "book", "toy", "game", "sport", "fitness",
   "beauty", "cosmetic", "perfume", "makeup",
   "home", "kitchen", "furniture", "decor"]

/-- The `/products/`-style folder bonus list (main.py 188). -/
def product_folders : List String :=
  ["/products/", "/items/", "/catalog/", "/shop/", "/store/"]

/-- The currency/price alt-text bonus list (main.py 192). -/
def price_terms : List String := ["төгрөг", "₮", "price", "sale", "buy", "order"]

/-- The raster-extension bonus list (main.py 201). -/
def img_extensions : List String := [".jpg", ".jpeg", ".png", ".webp"]

/-- `re.search(r'\d+x\d+', url)` (main.py 197): the regex matches iff some
digit–`'x'`–digit character triple occurs (ASCII digits; the url was already
lowercased). -/
def hasDimToken : List Char → Bool
  | a :: b :: c :: rest =>
    (a.isDigit && b == 'x' && c.isDigit) || hasDimToken (b :: c :: rest)
  | _ => false

/-- `is_product_image(img_url, alt_text, page_context)` (main.py 133-205):
deny-list rejection first, then the weighted keyword score against the fixed
threshold 3. -/
def is_product_image (img_url alt_text page_context : String) : Bool :=
  let u := pyLower img_url.data
  let a := pyLower alt_text.data
  let pg := pyLower page_context.data
  if skip_patterns.any fun p => pyIn p.data u || pyIn p.data a then false
  else
    let product_score : ℕ :=
      (product_indicators.map fun ind =>
        (if pyIn ind.data u then 2 else 0) + (if pyIn ind.data a then 3 else 0) +
          (if pyIn ind.data pg then 1 else 0)).sum
      + (if product_folders.any fun f => pyIn f.data u then 5 else 0)
      + (if price_terms.any fun tm => pyIn tm.data a then 3 else 0)
      + (if hasDimToken u then 2 else 0)
      + (if img_extensions.any fun e => pyIn e.data u then 1 else 0)
    decide (3 ≤ product_score)

/-! ## Lexical search (`main.py` lines 652-729) -/

/-- A reference to an image found on a page. -/
structure ImageRef where
  url : String
  alt : String
deriving Repr, DecidableEq

/-- A crawled page (an element of the `crawled_data` global). -/
structure Page where
  url : String
  title : String
  body : String
  images : List ImageRef
deriving Repr, DecidableEq

/-- An entry of `scored_results` in `search_in_crawled_data`
(main.py 714-719): title, url, snippet and the relevance score. -/
structure ScoredResult where
  title : String
  url : String
  snippet : String
  score : ℚ
deriving Repr, DecidableEq

/-- A returned search entry after `del result['score']` (main.py 725-727):
no score field. -/
structure SearchResult where
  title : String
  url : String
  snippet : String
deriving Repr, DecidableEq

/-- The relevance score of one page (main.py 666-693): exact-phrase bonuses,
per-token bonuses for tokens longer than 2, and partial word-overlap bonuses
(2 per title word, 0.5 per body word) for tokens longer than 3.  `ql`, `t`,
`b` are the lowercased query, title and body. -/
def pageScore (ql t b : List Char) : ℚ :=
  let qwords := wordsOf ql
  (if pyIn ql t then (10 : ℚ) else 0) + (if pyIn ql b then (5 : ℚ) else 0)
    + (qwords.map fun w =>
        if 2 < w.length then
          (if pyIn w t then (3 : ℚ) else 0) + (if pyIn w b then (1 : ℚ) else 0)
        else 0).sum
    + (qwords.map fun w =>
        if 3 < w.length then
          (2 : ℚ) * (((wordsOf t).countP fun tw => pyIn w tw || pyIn tw w : ℕ) : ℚ)
            + (1 / 2 : ℚ) * (((wordsOf b).countP fun bw => pyIn w bw || pyIn bw w : ℕ) : ℚ)
        else 0).sum

/-- Snippet selection (main.py 697-712): for each query token found in the
(lowercased) body, the 150-before/250-after window around its first
occurrence, stripped; the longest such window wins; fallback to the first
400 characters with an ellipsis when truncated. -/
def bestSnippet (qwords : List (List Char)) (b : List Char) : List Char :=
  let best := qwords.foldl
    (fun best w =>
      if pyIn w (pyLower b) then
        let pos := findSub w (pyLower b)
        let start := pos - 150
        let stop := min b.length (pos + 250)
        let snip := pyStrip ((b.drop start).take (stop - start))
        if best.length < snip.length then snip else best
      else best)
    []
  if best = [] then
    if 400 < b.length then b.take 400 ++ ('.' :: '.' :: '.' :: []) else b
  else best

/-- The `scored_results` list of `search_in_crawled_data` (main.py 661-719) in
corpus order: every page with positive relevance score, with its snippet. -/
def scoredResults (corpus : List Page) (query : String) : List ScoredResult :=
  let ql := pyLower query.data
  corpus.filterMap fun p =>
    let t := pyLower p.title.data
    let b := pyLower p.body.data
    let score := pageScore ql t b
    if 0 < score then some ⟨p.title, p.url, String.mk (bestSnippet (wordsOf ql) b), score⟩
    else none

/-- `search_in_crawled_data(query, max_results)` (main.py 652-729): empty
corpus short-circuit, score pages, keep positive scores, stable-sort by
descending score, truncate to `max_results`, and drop the score field. -/
def search_in_crawled_data (corpus : List Page) (query : String) (maxResults : Nat) :
    List SearchResult :=
  if corpus = [] then []
  else
    ((sortDescBy (·.score) (scoredResults corpus query)).take maxResults).map
      fun r => ⟨r.title, r.url, r.snippet⟩


/-! ## URL parsing and joining (`urllib.parse`, used by `main.py` 429-436)

`normalize_url` and `is_internal_link` delegate to the standard library's
`urlparse`/`urljoin`.  The functions below model CPython 3.11's
`urllib.parse` (`urlsplit`, `_splitparams`, `urlunsplit`, `urljoin`) on
code-point lists, omitting only the WHATWG control-character sanitization and
the IPv6 bracket validation (no input below contains control characters or
brackets). -/

/-- `scheme_chars` of `urllib.parse`. -/
def schemeChars : List Char :=
  "abcdefghijklmnopqrstuvwxyzABCDEFGHIJKLMNOPQRSTUVWXYZ0123456789+-.".data

/-- ASCII letter test (`url[0].isascii() and url[0].isalpha()`). -/
def isAsciiAlpha (c : Char) : Bool := ('a' ≤ c && c ≤ 'z') || ('A' ≤ c && c ≤ 'Z')

/-- The five components of `urlsplit`. -/
structure UrlSplitRec where
  scheme : List Char
  netloc : List Char
  path : List Char
  query : List Char
  fragment : List Char
deriving Repr, DecidableEq

/-- The six components of `urlparse`. -/
structure UrlParseRec where
  scheme : List Char
  netloc : List Char
  path : List Char
  params : List Char
  query : List Char
  fragment : List Char
deriving Repr, DecidableEq

/-- `uses_params` of `urllib.parse`. -/
def usesParams : List (List Char) :=
  (["", "ftp", "hdl", "prospero", "http", "imap", "https", "shttp", "rtsp",
    "rtspu", "sip", "sips", "mms", "sftp", "tel"] : List String).map (·.data)

/-- `uses_relative` of `urllib.parse`. -/
def usesRelative : List (List Char) :=
  (["", "ftp", "http", "gopher", "nntp", "imap", "wais", "file", "https",
    "shttp", "mms", "prospero", "rtsp", "rtspu", "sftp", "svn", "svn+ssh",
    "ws", "wss"] : List String).map (·.data)

/-- `uses_netloc` of `urllib.parse`. -/
def usesNetloc : List (List Char) :=
  (["", "ftp", "http", "gopher", "nntp", "telnet", "imap", "wais", "file",
    "mms", "https", "shttp", "snews", "prospero", "rtsp", "rtspu", "rsync",
    "svn", "svn+ssh", "sftp", "nfs", "git", "git+ssh", "ws", "wss",
    "itms-services"] : List String).map (·.data)

/-- The scheme well-formedness test of `urlsplit`: nonempty, leading ASCII
letter, remaining characters in `scheme_chars`. -/
def schemeOk (pre : List Char) : Bool :=
  match pre with
  | [] => false
  | c :: cs => isAsciiAlpha c && cs.all fun d => schemeChars.contains d

/-- The scheme-detection stage of `urlsplit`: when the text before the first
`':'` is a well-formed scheme, the lowercased scheme and the remainder;
otherwise the default scheme and the whole url. -/
def schemeSplit (url dflt : List Char) : List Char × List Char :=
  let pre := url.takeWhile (· != ':')
  if decide (pre.length < url.length) && schemeOk pre then
    (pyLower pre, (url.dropWhile (· != ':')).drop 1)
  else (dflt, url)

/-- A character that does not end the netloc (`_splitnetloc` stops at the
first of `/?#`). -/
def netlocChar (c : Char) : Bool := !(c == '/' || c == '?' || c == '#')

/-- The netloc stage of `urlsplit`: after a leading `"//"`, the netloc runs
to the first of `/?#`. -/
def netlocSplit (rest : List Char) : List Char × List Char :=
  if rest.take 2 = ['/', '/'] then
    ((rest.drop 2).takeWhile netlocChar, (rest.drop 2).dropWhile netlocChar)
  else ([], rest)

/-- A WHATWG C0-control or space character (codepoint `≤ 0x20`); `urlsplit`
lstrips these from the url and strips them from the scheme default. -/
def c0OrSpace (c : Char) : Bool := decide (c.toNat ≤ 32)

/-- `_UNSAFE_URL_BYTES_TO_REMOVE = ["\t", "\r", "\n"]`: removed everywhere
from the url and the scheme default by `urlsplit`. -/
def droppedUrlChar (c : Char) : Bool := c == '\t' || c == '\r' || c == '\n'

/-- `url.lstrip(_WHATWG_C0_CONTROL_OR_SPACE)` followed by removal of the
unsafe bytes, as done at the top of `urlsplit`. -/
def cleanUrl (url : List Char) : List Char :=
  (url.dropWhile c0OrSpace).filter (fun c => !droppedUrlChar c)

/-- `scheme.strip(_WHATWG_C0_CONTROL_OR_SPACE)` followed by removal of the
unsafe bytes, applied by `urlsplit` to the scheme default. -/
def cleanScheme (s : List Char) : List Char :=
  (((s.dropWhile c0OrSpace).reverse.dropWhile c0OrSpace).reverse).filter
    (fun c => !droppedUrlChar c)

/-- `urlsplit(url, scheme=dflt, allow_fragments=True)`: lstrip control/space
characters and drop tab/CR/LF, detect and lowercase a scheme, extract a
`//`-netloc up to the first of `/?#`, then split off the fragment (first `#`)
and the query (first `?` of what remains). -/
def pyUrlsplit (url : List Char) (dflt : List Char) : UrlSplitRec :=
  let s := schemeSplit (cleanUrl url) (cleanScheme dflt)
  let n := netlocSplit s.2
  let path0 := n.2.takeWhile (· != '#')
  let fragment := (n.2.dropWhile (· != '#')).drop 1
  let path := path0.takeWhile (· != '?')
  let query := (path0.dropWhile (· != '?')).drop 1
  ⟨s.1, n.1, path, query, fragment⟩

/-- The characters of `l` after its last `'/'` (all of `l` when there is
none). -/
def afterLastSlash (l : List Char) : List Char := (l.reverse.takeWhile (· != '/')).reverse

/-- The characters of `l` up to and including its last `'/'` (empty when
there is none). -/
def beforeLastSlashIncl (l : List Char) : List Char := (l.reverse.dropWhile (· != '/')).reverse

/-- `_splitparams(url)`: split the path at the first `';'` occurring after the
last `'/'` (or the first `';'` at all when the path has no `'/'`). -/
def splitParams (p : List Char) : List Char × List Char :=
  if '/' ∈ p then
    let seg := afterLastSlash p
    if ';' ∈ seg then
      (beforeLastSlashIncl p ++ seg.takeWhile (· != ';'), (seg.dropWhile (· != ';')).drop 1)
    else (p, [])
  else (p.takeWhile (· != ';'), (p.dropWhile (· != ';')).drop 1)

/-- `urlparse(url, scheme=dflt)`: `urlsplit` plus the params split, applied
when the scheme uses params and the path contains a `';'`. -/
def pyUrlparse (url dflt : List Char) : UrlParseRec :=
  let r := pyUrlsplit url dflt
  if r.scheme ∈ usesParams ∧ ';' ∈ r.path then
    let pp := splitParams r.path
    ⟨r.scheme, r.netloc, pp.1, pp.2, r.query, r.fragment⟩
  else ⟨r.scheme, r.netloc, r.path, [], r.query, r.fragment⟩

/-- `urlunsplit(components)` (CPython 3.11: the netloc wrap also fires for a
netloc-using scheme with an empty netloc). -/
def pyUrlunsplit (scheme netloc path query fragment : List Char) : List Char :=
  let u1 := path
  let u2 :=
    if netloc ≠ [] ∨ (scheme ≠ [] ∧ scheme ∈ usesNetloc ∧ u1.take 2 ≠ ['/', '/']) then
      '/' :: '/' :: (netloc ++ (if u1 ≠ [] ∧ u1.take 1 ≠ ['/'] then '/' :: u1 else u1))
    else u1
  let u3 := if scheme ≠ [] then scheme ++ ':' :: u2 else u2
  let u4 := if query ≠ [] then u3 ++ '?' :: query else u3
  if fragment ≠ [] then u4 ++ '#' :: fragment else u4

/-- `urlunparse(components)`: re-attach params to the path, then
`urlunsplit`. -/
def pyUrlunparse (scheme netloc path params query fragment : List Char) : List Char :=
  pyUrlunsplit scheme netloc (if params ≠ [] then path ++ ';' :: params else path)
    query fragment

/-- Python `str.split(c)` for a single-character separator (always returns at
least one piece). -/
def splitOnChar (c : Char) : List Char → List (List Char)
  | [] => [[]]
  | x :: xs =>
    if x = c then [] :: splitOnChar c xs
    else
      match splitOnChar c xs with
      | [] => [[x]]
      | h :: t => (x :: h) :: t

/-- `'/'.join(parts)`. -/
def joinSlash : List (List Char) → List Char
  | [] => []
  | [p] => p
  | p :: rest => p ++ '/' :: joinSlash rest

/-- Worker for `segments[1:-1] = filter(None, segments[1:-1])`: drops empty
pieces but keeps the final one. -/
def filterMiddleAux : List (List Char) → List (List Char)
  | [] => []
  | [z] => [z]
  | b :: rest => if b = [] then filterMiddleAux rest else b :: filterMiddleAux rest

/-- `segments[1:-1] = filter(None, segments[1:-1])`: keep the first and last
pieces, drop empty middles. -/
def filterMiddle : List (List Char) → List (List Char)
  | [] => []
  | [a] => [a]
  | a :: rest => a :: filterMiddleAux rest

/-- The `..`/`.` segment resolution loop of `urljoin`, with the trailing
empty segment appended when the final segment was `.` or `..`. -/
def resolveSegs (segs : List (List Char)) : List (List Char) :=
  let r := segs.foldl
    (fun acc seg =>
      if seg = ['.', '.'] then acc.dropLast
      else if seg = ['.'] then acc
      else acc ++ [seg]) []
  if segs.getLast? = some ['.'] ∨ segs.getLast? = some ['.', '.'] then r ++ [[]] else r

/-- The segment list `urljoin` resolves: the reference path's own segments
when it is absolute, otherwise the base directory's segments followed by the
reference's, with empty middles dropped. -/
def joinSegments (Bpath Upath : List Char) : List (List Char) :=
  let baseParts0 := splitOnChar '/' Bpath
  let baseParts := if baseParts0.getLast? ≠ some [] then baseParts0.dropLast
    else baseParts0
  if Upath.take 1 = ['/'] then splitOnChar '/' Upath
  else filterMiddle (baseParts ++ splitOnChar '/' Upath)

/-- The `.`/`..`-resolved joined path of `urljoin` (`'/'.join(resolved_path)
or '/'`). -/
def resolvedPath (Bpath Upath : List Char) : List Char :=
  let rp := joinSlash (resolveSegs (joinSegments Bpath Upath))
  if rp = [] then ['/'] else rp

/-- `urljoin(base, url)` of CPython 3.11 (validated against the reference
implementation on the branch-covering examples in the `urljoin` tests). -/
def pyUrljoin (base url : List Char) : List Char :=
  if base = [] then url
  else if url = [] then base
  else
    let B := pyUrlparse base []
    let U := pyUrlparse url B.scheme
    if U.scheme ≠ B.scheme ∨ U.scheme ∉ usesRelative then url
    else if U.scheme ∈ usesNetloc ∧ U.netloc ≠ [] then
      pyUrlunparse U.scheme U.netloc U.path U.params U.query U.fragment
    else
      let netloc := if U.scheme ∈ usesNetloc then B.netloc else U.netloc
      if U.path = [] ∧ U.params = [] then
        let query := if U.query = [] then B.query else U.query
        pyUrlunparse U.scheme netloc B.path B.params query U.fragment
      else
        pyUrlunparse U.scheme netloc (resolvedPath B.path U.path) U.params U.query
          U.fragment

/-- `normalize_url(base, link)` (main.py 435-436):
`urljoin(base, link.split("#")[0])`. -/
def normalize_url (base link : String) : String :=
  String.mk (pyUrljoin base.data (link.data.takeWhile (· != '#')))

/-- Reattachment of params to a path (`urlunparse`'s `url + ';' + params`
step, as a named function). -/
def recombParams (p pr : List Char) : List Char := if pr ≠ [] then p ++ ';' :: pr else p

/-- `urlunsplit`'s `'/' + url` prefixing of a relative path when a netloc is
emitted, as a named function. -/
def prepPath (pp : List Char) : List Char :=
  if pp ≠ [] ∧ pp.take 1 ≠ ['/'] then '/' :: pp else pp

/-- `urlunsplit`'s `'?' + query` suffix, as a named function. -/
def qpart (q : List Char) : List Char := if q ≠ [] then '?' :: q else []

/-! ## Crawler (`main.py` lines 54-93, 429-433) -/

/-- Crawl configuration: the module constants `ROOT_URL` and
`MAX_CRAWL_PAGES` (main.py 30-33); `ALLOWED_NETLOC` is derived from
`rootUrl` exactly as in the source. -/
structure CrawlConfig where
  rootUrl : String
  maxPages : Nat

/-- `is_internal_link(href)` (main.py 429-433): an empty href is external;
otherwise the href's netloc must be empty or equal to
`ALLOWED_NETLOC = urlparse(ROOT_URL).netloc`. -/
def is_internal_link (cfg : CrawlConfig) (href : String) : Bool :=
  if href.data = [] then false
  else
    decide ((pyUrlparse href.data []).netloc = [] ∨
      (pyUrlparse href.data []).netloc = (pyUrlparse cfg.rootUrl.data []).netloc)

/-- Python `full.startswith(root)` on code-point lists
(`startsWithL s pre` is true when `pre` is a prefix of `s`). -/
def startsWithL : List Char → List Char → Bool
  | _, [] => true
  | [], _ :: _ => false
  | a :: as, b :: bs => a == b && startsWithL as bs

/-- What the fetch + BeautifulSoup stage yields for one URL: the `<title>`
string when present, the extracted body, the image references, and the
`href` values of the anchors in document order.  A failed fetch
(`requests.get` / `raise_for_status` raising) is `none`. -/
structure FetchedPage where
  rawTitle : Option String
  body : String
  images : List ImageRef
  links : List String

/-- `soup.title.string.strip() if soup.title and soup.title.string else url`
(main.py 74). -/
def pageTitle (url : String) (pg : FetchedPage) : String :=
  match pg.rawTitle with
  | some t => String.mk (pyStrip t.data)
  | none => url

/-- One step of the link-discovery loop (main.py 84-89): an internal href is
resolved against the current page URL; the absolute URL is enqueued when it
starts with `ROOT_URL`, is unvisited, and is not already in the frontier (the
Python frontier is a set, so re-adding is a no-op). -/
def addLink (cfg : CrawlConfig) (pageUrl : String) (visited : List String)
    (fr : List String) (href : String) : List String :=
  if is_internal_link cfg href then
    let full := normalize_url pageUrl href
    if startsWithL full.data cfg.rootUrl.data && !(visited.contains full) &&
        !(fr.contains full) then
      fr ++ [full]
    else fr
  else fr

/-- The link-discovery loop over all anchors of a fetched page
(main.py 84-89). -/
def discoverLinks (cfg : CrawlConfig) (pageUrl : String) (visited : List String)
    (frontier : List String) (links : List String) : List String :=
  links.foldl (addLink cfg pageUrl visited) frontier

/-- The `while to_visit and len(visited) < MAX_CRAWL_PAGES` loop of
`crawl_and_scrape` (main.py 59-91), with the unordered set frontier realised
as a worklist (a set's `pop` order is arbitrary; the properties proved are
about the visited set and results, not the order).  Returns the final
visited set together with the results. -/
def crawlLoop (cfg : CrawlConfig) (fetch : String → Option FetchedPage) :
    List String → List String → List Page → List String × List Page
  | visited, [], results => (visited, results)
  | visited, url :: rest, results =>
    if cfg.maxPages ≤ visited.length then (visited, results)
    else if url ∈ visited then crawlLoop cfg fetch visited rest results
    else
      match fetch url with
      | none => crawlLoop cfg fetch (url :: visited) rest results
      | some pg =>
        crawlLoop cfg fetch (url :: visited)
          (discoverLinks cfg url (url :: visited) rest pg.links)
          (results ++ [⟨url, pageTitle url pg, pg.body, pg.images⟩])
termination_by visited frontier _ => (cfg.maxPages - visited.length, frontier.length)

/-- `crawl_and_scrape(start_url)` (main.py 54-93): run the loop from the
start URL and return the page list. -/
def crawl_and_scrape (cfg : CrawlConfig) (fetch : String → Option FetchedPage)
    (startUrl : String) : List Page :=
  (crawlLoop cfg fetch [] [startUrl] []).2

/-! ## Crawl status, corpus state and trigger endpoints
(`main.py` lines 47-51, 96-130, 841-844, 901-932, 1058-1081) -/

/-- The enumerated crawl states (the `"status"` values that `main.py` ever
stores in `crawl_status`). -/
inductive CrawlTag where
  | not_started
  | disabled
  | running
  | completed
  | failed
  | error
deriving Repr, DecidableEq

/-- The `crawl_status` global: state tag, human message, and the optional
`pages_count` / `timestamp` keys present on completion. -/
structure StatusRec where
  tag : CrawlTag
  message : String
  pages_count : Option Nat
  timestamp : Option String
deriving Repr, DecidableEq

/-- The mutable module state read and written by the handlers: the
`crawled_data` page corpus, the `crawled_images` store, and `crawl_status`. -/
structure AppState where
  pages : List Page
  images : List StoredImage
  status : StatusRec
deriving Repr, DecidableEq

/-- The outcome of one crawl pass, abstracting the network: the stored images
appended to `crawled_images` by `extract_content` while the pass ran
(main.py 409-425 — appended incrementally, also on a pass that later fails),
and either the page list `crawl_and_scrape` returned or the text of the
exception it raised. -/
structure PassOutcome where
  passImages : List StoredImage
  pages : Except String (List Page)
deriving Repr

/-- A trigger endpoint's HTTP-level result: the 409 conflict, a page list
response, the 500 "no pages" failure, or the 500 crawl-error response. -/
inductive TriggerResp where
  | conflict
  | okPages (ps : List Page)
  | noPages
  | crawlError (e : String)
deriving Repr, DecidableEq

/-- `force_crawl` (`POST /api/force-crawl`, main.py 901-932): reject with 409
while `running`; otherwise run the pass, replace `crawled_data`, and resolve
the status to completed / failed / error.  `now` abstracts
`datetime.now().isoformat()`. -/
def force_crawl (now : String) (pass : PassOutcome) (s : AppState) :
    TriggerResp × AppState :=
  if s.status.tag = .running then (.conflict, s)
  else
    let images := s.images ++ pass.passImages
    match pass.pages with
    | .error e =>
      (.crawlError e,
        ⟨s.pages, images, ⟨.error, "Force crawl error: " ++ e, none, none⟩⟩)
    | .ok ps =>
      if ps = [] then
        (.noPages,
          ⟨[], images, ⟨.failed, "Force crawl failed - no pages found", none, none⟩⟩)
      else
        (.okPages ps,
          ⟨ps, images,
            ⟨.completed, "Force crawl completed via API", some ps.length, some now⟩⟩)

/-- `api_crawl` (`POST /api/crawl`, main.py 841-844): calls
`crawl_and_scrape(ROOT_URL)` unconditionally — no check of `crawl_status` —
and returns the pages.  It writes neither `crawled_data` nor `crawl_status`,
but the pass itself still appends to the shared `crawled_images`. -/
def api_crawl (pass : PassOutcome) (s : AppState) : TriggerResp × AppState :=
  let s' := { s with images := s.images ++ pass.passImages }
  match pass.pages with
  | .error e => (.crawlError e, s')
  | .ok ps => (.okPages ps, s')

/-- `auto_crawl_on_startup` (main.py 96-125): the startup trigger path.
`autoFlag` is `AUTO_CRAWL_ON_START`. -/
def auto_crawl_on_startup (autoFlag : Bool) (now : String) (pass : PassOutcome)
    (s : AppState) : AppState :=
  if ¬ autoFlag then
    { s with status := ⟨.disabled, "Auto-crawl is disabled", none, none⟩ }
  else
    let images := s.images ++ pass.passImages
    match pass.pages with
    | .error e =>
      ⟨s.pages, images, ⟨.error, "Crawl error: " ++ e, none, none⟩⟩
    | .ok ps =>
      if ps = [] then
        ⟨[], images, ⟨.failed, "No pages were crawled", none, none⟩⟩
      else
        ⟨ps, images,
          ⟨.completed, "Successfully crawled " ++ toString ps.length ++ " pages",
            some ps.length, some now⟩⟩

/-- `clear_crawled_images` (`POST /api/clear-images`, main.py 1058-1081): the
only operation that empties the `crawled_images` store. -/
def clear_crawled_images (s : AppState) : AppState := { s with images := [] }

/-- A concrete page, image and state used by the concrete counterexamples. -/
def pageA : Page := ⟨"https://kako.mn/", "Kako", "old body", []⟩

/-- A second concrete page (the result of a later pass). -/
def pageB : Page := ⟨"https://kako.mn/new", "New", "new body", []⟩

/-- A stored image ingested by an earlier crawl. -/
def imgOld : StoredImage := ⟨"https://kako.mn/old.jpg", "old.jpg", "https://kako.mn/",
  "old", "Kako", zeroFeatures⟩

/-- A stored image ingested by the later pass. -/
def imgNew : StoredImage := ⟨"https://kako.mn/new.jpg", "new.jpg", "https://kako.mn/new",
  "new", "New", zeroFeatures⟩

/-- A state in which a crawl is currently running over a non-empty corpus. -/
def runningState : AppState :=
  ⟨[pageA], [imgOld], ⟨.running, "Crawling https://kako.mn/...", none, none⟩⟩

/-- A state left by an earlier completed crawl. -/
def completedState : AppState :=
  ⟨[pageA], [imgOld], ⟨.completed, "Successfully crawled 1 pages", some 1,
    some "2025-01-01T00:00:00"⟩⟩

/-- The pass outcome of a later successful crawl producing `pageB`/`imgNew`. -/
def laterPass : PassOutcome := ⟨[imgNew], .ok [pageB]⟩

/-! ## Generic list lemmas and sort lemmas -/

theorem chi2_nonneg (h1 h2 : List ℚ) : 0 ≤ chi2 h1 h2 := by
  induction h1 generalizing h2 with
  | nil => simp [chi2]
  | cons a as ih =>
    cases h2 with
    | nil => simp [chi2]
    | cons b bs =>
      have hterm : 0 ≤ if 0 < a + b then (a - b) ^ 2 / (a + b) else 0 := by
        split
        · exact div_nonneg (sq_nonneg _) (by linarith)
        · exact le_refl 0
      simpa [chi2] using add_nonneg hterm (ih bs)

theorem chi2_self (h : List ℚ) : chi2 h h = 0 := by
  induction h with
  | nil => simp [chi2]
  | cons a as ih =>
    simp only [chi2, ih, add_zero]
    split <;> simp

theorem chi2_eq_chi2Spec (h1 h2 : List ℚ) (H1 : ∀ x ∈ h1, 0 ≤ x) (H2 : ∀ x ∈ h2, 0 ≤ x) :
    chi2 h1 h2 = chi2Spec h1 h2 := by
  induction h1 generalizing h2 with
  | nil => cases h2 <;> simp [chi2, chi2Spec]
  | cons a as ih =>
    cases h2 with
    | nil => simp [chi2, chi2Spec]
    | cons b bs =>
      have ha : 0 ≤ a := H1 a (by simp)
      have hb : 0 ≤ b := H2 b (by simp)
      have hiff : (0 < a + b) ↔ (a + b ≠ 0) := by
        constructor
        · intro h; exact ne_of_gt h
        · intro h; rcases lt_or_eq_of_le (add_nonneg ha hb) with h' | h'
          · exact h'
          · exact absurd h'.symm h
      have htail : chi2 as bs = chi2Spec as bs :=
        ih bs (fun x hx => H1 x (List.mem_cons_of_mem a hx))
          (fun x hx => H2 x (List.mem_cons_of_mem b hx))
      simp only [chi2, chi2Spec, htail]
      by_cases hc : 0 < a + b
      · rw [if_pos hc, if_pos (hiff.mp hc)]
      · rw [if_neg hc, if_neg fun hne => hc (hiff.mpr hne)]

theorem mem_insDescBy (key : α → ℚ) (x a : α) (l : List α) :
    a ∈ insDescBy key x l ↔ a = x ∨ a ∈ l := by
  induction l with
  | nil => simp [insDescBy]
  | cons y ys ih =>
    simp only [insDescBy]
    split
    · simp only [List.mem_cons, ih]
      tauto
    · simp only [List.mem_cons]

theorem perm_insDescBy (key : α → ℚ) (x : α) (l : List α) :
    List.Perm (insDescBy key x l) (x :: l) := by
  induction l with
  | nil => simp [insDescBy]
  | cons y ys ih =>
    simp only [insDescBy]
    split
    · exact (ih.cons y).trans (List.Perm.swap x y ys)
    · exact List.Perm.refl _

theorem perm_sortDescBy (key : α → ℚ) (l : List α) : List.Perm (sortDescBy key l) l := by
  induction l with
  | nil => simp [sortDescBy]
  | cons x xs ih =>
    exact (perm_insDescBy key x (sortDescBy key xs)).trans (ih.cons x)

theorem pairwise_insDescBy (key : α → ℚ) (x : α) (l : List α)
    (h : l.Pairwise fun a b => key b ≤ key a) :
    (insDescBy key x l).Pairwise fun a b => key b ≤ key a := by
  induction l with
  | nil => simp [insDescBy]
  | cons y ys ih =>
    rw [List.pairwise_cons] at h
    simp only [insDescBy]
    split
    · rename_i hlt
      rw [List.pairwise_cons]
      refine ⟨fun z hz => ?_, ih h.2⟩
      rcases (mem_insDescBy key x z ys).mp hz with rfl | hz'
      · exact le_of_lt hlt
      · exact h.1 z hz'
    · rename_i hnlt
      rw [List.pairwise_cons]
      refine ⟨fun z hz => ?_, List.pairwise_cons.mpr h⟩
      rcases List.mem_cons.mp hz with rfl | hz'
      · exact le_of_not_lt hnlt
      · exact le_trans (h.1 z hz') (le_of_not_lt hnlt)

theorem pairwise_sortDescBy (key : α → ℚ) (l : List α) :
    (sortDescBy key l).Pairwise fun a b => key b ≤ key a := by
  induction l with
  | nil => simp [sortDescBy]
  | cons x xs ih => exact pairwise_insDescBy key x _ ih

theorem filter_insDescBy (key : α → ℚ) (s : ℚ) (x : α) (l : List α) :
    (insDescBy key x l).filter (fun a => decide (key a = s)) =
      if key x = s then x :: l.filter (fun a => decide (key a = s))
      else l.filter (fun a => decide (key a = s)) := by
  induction l with
  | nil =>
    simp only [insDescBy, List.filter]
    by_cases h : key x = s <;> simp [h]
  | cons y ys ih =>
    simp only [insDescBy]
    split
    · rename_i hlt
      by_cases hx : key x = s
      · have hy : ¬ (key y = s) := by
          intro hy; rw [hx] at hlt; rw [hy] at hlt; exact lt_irrefl s hlt
        simp only [List.filter_cons, decide_eq_true_eq, if_neg hy, ih, if_pos hx,
          if_neg hy]
      · simp only [List.filter_cons, decide_eq_true_eq, ih, if_neg hx]
    · by_cases hx : key x = s
      · simp [List.filter_cons, hx]
      · simp [List.filter_cons, hx]

theorem filter_sortDescBy (key : α → ℚ) (s : ℚ) (l : List α) :
    (sortDescBy key l).filter (fun a => decide (key a = s)) =
      l.filter (fun a => decide (key a = s)) := by
  induction l with
  | nil => simp [sortDescBy]
  | cons x xs ih =>
    rw [sortDescBy, filter_insDescBy, ih]
    by_cases h : key x = s
    · rw [if_pos h, List.filter_cons, if_pos (decide_eq_true h)]
    · rw [if_neg h, List.filter_cons, if_neg (by simpa using h)]

/-! ## Claim C5: similarity formula, range, self-similarity -/

/-- Claim C5: for valid feature sets, `calculate_image_similarity` equals
`1/(1+d)` with `d` the spec's averaged chi-squared distance over bins of
nonzero sum; the result lies in `(0, 1]`; and self-similarity is exactly 1. -/
theorem c5_similarity_formula (f1 f2 : ImgFeatures)
    (h1 : ValidFeatures f1) (h2 : ValidFeatures f2) :
    calculate_image_similarity f1 f2 = 1 / (1 + specAvgDistance f1 f2) ∧
    0 < calculate_image_similarity f1 f2 ∧
    calculate_image_similarity f1 f2 ≤ 1 ∧
    calculate_image_similarity f1 f1 = 1 := by
  obtain ⟨hr1, hg1, hb1, hnr1, hng1, hnb1⟩ := h1
  obtain ⟨hr2, hg2, hb2, hnr2, hng2, hnb2⟩ := h2
  have hguard : ¬ (f2.hist_r.length < f1.hist_r.length ∨
      f2.hist_g.length < f1.hist_g.length ∨ f2.hist_b.length < f1.hist_b.length) := by
    rw [hr1, hg1, hb1, hr2, hg2, hb2]; simp
  have havg0 : 0 ≤ (chi2 f1.hist_r f2.hist_r + chi2 f1.hist_g f2.hist_g +
      chi2 f1.hist_b f2.hist_b) / 3 := by
    have := chi2_nonneg f1.hist_r f2.hist_r
    have := chi2_nonneg f1.hist_g f2.hist_g
    have := chi2_nonneg f1.hist_b f2.hist_b
    positivity
  have hdenpos : 0 < 1 + (chi2 f1.hist_r f2.hist_r + chi2 f1.hist_g f2.hist_g +
      chi2 f1.hist_b f2.hist_b) / 3 := by linarith
  refine ⟨?_, ?_, ?_, ?_⟩
  · simp only [calculate_image_similarity, if_neg hguard, specAvgDistance,
      chi2_eq_chi2Spec f1.hist_r f2.hist_r hnr1 hnr2,
      chi2_eq_chi2Spec f1.hist_g f2.hist_g hng1 hng2,
      chi2_eq_chi2Spec f1.hist_b f2.hist_b hnb1 hnb2]
  · simp only [calculate_image_similarity, if_neg hguard]
    positivity
  · simp only [calculate_image_similarity, if_neg hguard]
    rw [div_le_one hdenpos]
    linarith
  · have hguard1 : ¬ (f1.hist_r.length < f1.hist_r.length ∨
        f1.hist_g.length < f1.hist_g.length ∨ f1.hist_b.length < f1.hist_b.length) := by
      simp
    simp [calculate_image_similarity, if_neg hguard1, chi2_self]

/-- Witness for C5 at the all-zero valid feature set. -/
theorem c5_similarity_formula_witness :
    ValidFeatures zeroFeatures ∧
    (calculate_image_similarity zeroFeatures zeroFeatures =
        1 / (1 + specAvgDistance zeroFeatures zeroFeatures) ∧
      0 < calculate_image_similarity zeroFeatures zeroFeatures ∧
      calculate_image_similarity zeroFeatures zeroFeatures ≤ 1 ∧
      calculate_image_similarity zeroFeatures zeroFeatures = 1) := by
  have hv : ValidFeatures zeroFeatures := by
    refine ⟨List.length_replicate 256 0, List.length_replicate 256 0,
      List.length_replicate 256 0, ?_, ?_, ?_⟩ <;>
    · intro x hx
      rw [List.eq_of_mem_replicate hx]
  exact ⟨hv, c5_similarity_formula zeroFeatures zeroFeatures hv hv⟩

/-! ## Claim C6: find_similar_crawled_images -/

/-- Claim C6: `find_similar_crawled_images` returns at most 3 matches, each
with similarity ≥ threshold, ranked by non-increasing similarity; the sorted
list it truncates is a permutation of the ingestion-order match list that
preserves the relative order of equal-similarity entries (stability). -/
theorem c6_find_similar (imgs : List StoredImage) (uf : ImgFeatures) (thr : ℚ) :
    find_similar_crawled_images imgs uf thr =
        (sortDescBy (·.similarity) (similarMatches imgs uf thr)).take 3 ∧
    (find_similar_crawled_images imgs uf thr).length ≤ 3 ∧
    (∀ m ∈ find_similar_crawled_images imgs uf thr, thr ≤ m.similarity) ∧
    (find_similar_crawled_images imgs uf thr).Pairwise
      (fun a b => b.similarity ≤ a.similarity) ∧
    List.Perm (sortDescBy (·.similarity) (similarMatches imgs uf thr))
      (similarMatches imgs uf thr) ∧
    ∀ s : ℚ,
      (sortDescBy (·.similarity) (similarMatches imgs uf thr)).filter
          (fun m => decide (m.similarity = s)) =
        (similarMatches imgs uf thr).filter (fun m => decide (m.similarity = s)) := by
  refine ⟨rfl, ?_, ?_, ?_, perm_sortDescBy _ _, fun s => filter_sortDescBy _ s _⟩
  · have h1 : (find_similar_crawled_images imgs uf thr).length =
        min 3 (sortDescBy (·.similarity) (similarMatches imgs uf thr)).length := by
      rw [find_similar_crawled_images, List.length_take]
    rw [h1]
    exact min_le_left _ _
  · intro m hm
    have hm' : m ∈ sortDescBy (·.similarity) (similarMatches imgs uf thr) :=
      List.mem_of_mem_take hm
    have hm2 : m ∈ similarMatches imgs uf thr :=
      (perm_sortDescBy (·.similarity) (similarMatches imgs uf thr)).mem_iff.mp hm'
    obtain ⟨im, _, him⟩ := List.mem_filterMap.mp hm2
    by_cases hc : thr ≤ calculate_image_similarity uf im.feats
    · simp only [similarMatches, if_pos hc, Option.some_inj] at him
      rw [← him]
      exact hc
    · simp [similarMatches, if_neg hc] at him
  · exact List.Pairwise.sublist (List.take_sublist 3 _) (pairwise_sortDescBy _ _)

/-! ## Claim C7: histogram normalization -/

theorem sum_map_add_nat (l : List β) (f g : β → ℕ) :
    (l.map fun a => f a + g a).sum = (l.map f).sum + (l.map g).sum := by
  induction l with
  | nil => simp
  | cons a as ih => simp only [List.map_cons, List.sum_cons, ih]; ring

theorem sum_map_div_rat (l : List β) (f : β → ℚ) (c : ℚ) :
    (l.map fun a => f a / c).sum = (l.map f).sum / c := by
  induction l with
  | nil => simp
  | cons a as ih => simp only [List.map_cons, List.sum_cons, ih, add_div]

theorem sum_map_ite_one (k n : ℕ) (hk : k < n) :
    ((List.range n).map fun v => if k == v then (1 : ℕ) else 0).sum = 1 := by
  induction n with
  | zero => omega
  | succ n ih =>
    rw [List.range_succ, List.map_append, List.sum_append]
    by_cases h : k = n
    · subst h
      have hz : ((List.range k).map fun v => if k == v then (1 : ℕ) else 0).sum = 0 := by
        apply List.sum_eq_zero
        intro x hx
        obtain ⟨v, hv, rfl⟩ := List.mem_map.mp hx
        have hkv : ¬ (k == v) = true := by
          intro hkv
          rw [eq_of_beq hkv] at hv
          exact absurd (List.mem_range.mp hv) (lt_irrefl v)
        simp [hkv]
      rw [hz]
      simp
    · have hk' : k < n := by omega
      rw [ih hk']
      simp [h]

theorem sum_map_countP_range (ch : List (Fin 256)) :
    ((List.range 256).map fun v => ch.countP fun p => p.val == v).sum = ch.length := by
  induction ch with
  | nil =>
    rw [List.length_nil]
    apply List.sum_eq_zero
    intro x hx
    obtain ⟨v, _, rfl⟩ := List.mem_map.mp hx
    exact List.countP_nil _
  | cons p ps ih =>
    have hsplit : ((List.range 256).map fun v => (p :: ps).countP fun q => q.val == v) =
        (List.range 256).map fun v =>
          ps.countP (fun q => q.val == v) + (if p.val == v then 1 else 0) := by
      refine List.map_congr_left fun v _ => ?_
      rw [List.countP_cons]
    rw [hsplit, sum_map_add_nat, ih, sum_map_ite_one p.val 256 p.isLt]
    simp [List.length_cons]

theorem normHist_sum_bounds (ch : List (Fin 256)) (hne : ch ≠ []) :
    (normHist ch).sum = 1 ∧ ∀ b ∈ normHist ch, 0 ≤ b ∧ b ≤ 1 := by
  have hlen : 0 < ch.length := List.length_pos.mpr hne
  have hlenQ : (0 : ℚ) < (ch.length : ℚ) := by exact_mod_cast hlen
  constructor
  · have hdiv : (normHist ch).sum =
        ((List.range 256).map fun v =>
          ((ch.countP fun p => p.val == v : ℕ) : ℚ)).sum / (ch.length : ℚ) := by
      rw [normHist, sum_map_div_rat]
    have hcomp : ((List.range 256).map fun v =>
        ((ch.countP fun p => p.val == v : ℕ) : ℚ)) =
        (((List.range 256).map fun v => ch.countP fun p => p.val == v).map
          fun n : ℕ => (n : ℚ)) := by
      rw [List.map_map]
      rfl
    have hcast : ∀ l : List ℕ, (l.map fun n : ℕ => (n : ℚ)).sum = ((l.sum : ℕ) : ℚ) := by
      intro l
      induction l with
      | nil => simp
      | cons a as iha =>
        simp only [List.map_cons, List.sum_cons, iha]
        push_cast
        ring
    rw [hdiv, hcomp, hcast, sum_map_countP_range, div_self (ne_of_gt hlenQ)]
  · intro b hb
    obtain ⟨v, _, rfl⟩ := List.mem_map.mp hb
    constructor
    · exact div_nonneg (by positivity) (le_of_lt hlenQ)
    · rw [div_le_one hlenQ]
      exact_mod_cast List.countP_le_length _

/-- Claim C7: each normalized channel histogram of a successfully processed
image (crawled or uploaded; the normalization code is identical) has all bins
in `[0,1]` and bins summing to exactly 1, because each PIL bin count is
divided by the thumbnail's total pixel count. -/
theorem c7_histograms_normalized (t : Thumb) (hne : t.pixels ≠ []) :
    ((image_features t).hist_r.sum = 1 ∧
      ∀ b ∈ (image_features t).hist_r, 0 ≤ b ∧ b ≤ 1) ∧
    ((image_features t).hist_g.sum = 1 ∧
      ∀ b ∈ (image_features t).hist_g, 0 ≤ b ∧ b ≤ 1) ∧
    ((image_features t).hist_b.sum = 1 ∧
      ∀ b ∈ (image_features t).hist_b, 0 ≤ b ∧ b ≤ 1) := by
  have hr : t.pixels.map (·.1) ≠ [] := by simpa using hne
  have hg : t.pixels.map (·.2.1) ≠ [] := by simpa using hne
  have hb : t.pixels.map (·.2.2) ≠ [] := by simpa using hne
  exact ⟨normHist_sum_bounds _ hr, normHist_sum_bounds _ hg, normHist_sum_bounds _ hb⟩

/-- Witness for C7: a one-pixel black thumbnail. -/
theorem c7_histograms_normalized_witness :
    (Thumb.mk [(0, 0, 0)]).pixels ≠ [] ∧
    (((image_features (Thumb.mk [(0, 0, 0)])).hist_r.sum = 1 ∧
        ∀ b ∈ (image_features (Thumb.mk [(0, 0, 0)])).hist_r, 0 ≤ b ∧ b ≤ 1) ∧
      ((image_features (Thumb.mk [(0, 0, 0)])).hist_g.sum = 1 ∧
        ∀ b ∈ (image_features (Thumb.mk [(0, 0, 0)])).hist_g, 0 ≤ b ∧ b ≤ 1) ∧
      ((image_features (Thumb.mk [(0, 0, 0)])).hist_b.sum = 1 ∧
        ∀ b ∈ (image_features (Thumb.mk [(0, 0, 0)])).hist_b, 0 ≤ b ∧ b ≤ 1)) :=
  ⟨by simp, c7_histograms_normalized (Thumb.mk [(0, 0, 0)]) (by simp)⟩

/-! ## Claim C8: deny-list rejection precedes scoring -/

/-- Claim C8: whenever any deny-list substring occurs in the lowercased image
URL or the lowercased alt text, `is_product_image` rejects the image,
whatever its keyword score would have been. -/
theorem c8_deny_list_rejects (img_url alt_text page_context : String)
    (h : ∃ p ∈ skip_patterns,
      p.data <:+: pyLower img_url.data ∨ p.data <:+: pyLower alt_text.data) :
    is_product_image img_url alt_text page_context = false := by
  obtain ⟨p, hp, hcase⟩ := h
  have hany : (skip_patterns.any fun p =>
      pyIn p.data (pyLower img_url.data) || pyIn p.data (pyLower alt_text.data)) = true := by
    rw [List.any_eq_true]
    refine ⟨p, hp, ?_⟩
    rcases hcase with h' | h' <;> simp [pyIn, h']
  simp only [is_product_image]
  rw [if_pos hany]

/-- Witness for C8: the spec's Scenario C, alt text `"logo-header"` under a
`/static/logo/` path. -/
theorem c8_deny_list_rejects_witness :
    (∃ p ∈ skip_patterns,
      p.data <:+: pyLower ("/static/logo/a.png" : String).data ∨
      p.data <:+: pyLower ("logo-header" : String).data) ∧
    is_product_image "/static/logo/a.png" "logo-header" "product product product" = false :=
  ⟨by decide, c8_deny_list_rejects "/static/logo/a.png" "logo-header"
    "product product product" (by decide)⟩

/-! ## Claim C4: search_in_crawled_data -/

/-- Claim C4: search returns the score-stripped prefix of the descending
stable sort of the positively-scored pages; at most `maxResults` entries,
every returned entry's underlying relevance score is strictly positive, and
the entries are ordered by non-increasing score.  The returned
`SearchResult` type carries no score field. -/
theorem c4_search_results (corpus : List Page) (query : String) (maxResults : Nat) :
    search_in_crawled_data corpus query maxResults =
      ((sortDescBy (·.score) (scoredResults corpus query)).take maxResults).map
        (fun r => ⟨r.title, r.url, r.snippet⟩) ∧
    (search_in_crawled_data corpus query maxResults).length ≤ maxResults ∧
    (∀ r ∈ (sortDescBy (·.score) (scoredResults corpus query)).take maxResults,
      0 < r.score) ∧
    ((sortDescBy (·.score) (scoredResults corpus query)).take maxResults).Pairwise
      (fun a b => b.score ≤ a.score) := by
  have hpos : ∀ r ∈ (sortDescBy (·.score) (scoredResults corpus query)).take maxResults,
      0 < r.score := by
    intro r hr
    have hr1 : r ∈ sortDescBy (·.score) (scoredResults corpus query) :=
      List.mem_of_mem_take hr
    have hr2 : r ∈ scoredResults corpus query :=
      (perm_sortDescBy (·.score) (scoredResults corpus query)).mem_iff.mp hr1
    obtain ⟨p, _, hpr⟩ := List.mem_filterMap.mp hr2
    by_cases hsc : 0 < pageScore (pyLower query.data) (pyLower p.title.data)
        (pyLower p.body.data)
    · simp only [if_pos hsc, Option.some_inj] at hpr
      rw [← hpr]
      exact hsc
    · simp [if_neg hsc] at hpr
  refine ⟨?_, ?_, hpos, ?_⟩
  · by_cases hc : corpus = []
    · subst hc
      have hsr : scoredResults [] query = [] := rfl
      simp [search_in_crawled_data, hsr, sortDescBy]
    · rw [search_in_crawled_data, if_neg hc]
  · by_cases hc : corpus = []
    · subst hc
      simp [search_in_crawled_data]
    · rw [search_in_crawled_data, if_neg hc]
      rw [List.length_map, List.length_take]
      exact min_le_left _ _
  · exact List.Pairwise.sublist (List.take_sublist maxResults _) (pairwise_sortDescBy _ _)

/-! ## Claim C1: trigger while running -/

/-- Counterexample to C1 as stated: the claim asserts the conflict rejection
"for every trigger path that starts a crawl", but `api_crawl`
(`POST /api/crawl`) has no running-status check: triggered in a running
state it is not rejected — it runs a full second pass (returning its pages
and appending that pass's images to the shared store). -/
theorem c1_api_crawl_not_rejected :
    (api_crawl laterPass runningState).1 ≠ TriggerResp.conflict ∧
    (api_crawl laterPass runningState).1 = TriggerResp.okPages [pageB] ∧
    (api_crawl laterPass runningState).2.images = runningState.images ++ [imgNew] := by
  refine ⟨?_, rfl, rfl⟩
  have h1 : (api_crawl laterPass runningState).1 = TriggerResp.okPages [pageB] := rfl
  rw [h1]
  exact fun h => TriggerResp.noConfusion h

/-- Claim C1 amended: the guarded trigger path, `force_crawl`, rejects a
trigger issued while the status is `running` with the 409 conflict and leaves
the state (corpus, images, status) untouched; the unguarded `api_crawl` path
does not reject (see the counterexample). -/
theorem c1_force_crawl_conflict (now : String) (pass : PassOutcome) (s : AppState)
    (h : s.status.tag = .running) :
    force_crawl now pass s = (.conflict, s) := by
  rw [force_crawl, if_pos h]

/-- Witness for the amended C1 at a concrete running state. -/
theorem c1_force_crawl_conflict_witness :
    runningState.status.tag = .running ∧
    force_crawl "2025-01-02T00:00:00" laterPass runningState = (.conflict, runningState) :=
  ⟨rfl, c1_force_crawl_conflict "2025-01-02T00:00:00" laterPass runningState rfl⟩

/-! ## Claim C2: corpus replacement after a completed crawl -/

/-- Counterexample to C2 as stated: after a later completed crawl that
produced exactly `pageB` and `imgNew`, the page corpus is fully replaced, but
the stored image `imgOld` from the earlier crawl is still present —
`crawled_images` is never reset by a crawl, so the StoredImage set is not
"exactly the entities produced by that pass". -/
theorem c2_images_survive_counterexample :
    (force_crawl "t" laterPass completedState).2.status.tag = CrawlTag.completed ∧
    (force_crawl "t" laterPass completedState).2.pages = [pageB] ∧
    imgOld ∈ (force_crawl "t" laterPass completedState).2.images ∧
    (force_crawl "t" laterPass completedState).2.images ≠ [imgNew] := by
  refine ⟨rfl, rfl, ?_, ?_⟩
  · have h1 : (force_crawl "t" laterPass completedState).2.images = [imgOld, imgNew] := rfl
    rw [h1]
    exact List.mem_cons_self _ _
  · have h1 : (force_crawl "t" laterPass completedState).2.images = [imgOld, imgNew] := rfl
    rw [h1]
    intro h
    have := congrArg List.length h
    simp at this

/-- Claim C2 amended: a completed (or even failed) crawl fully replaces the
page corpus with the pages of that pass, but the StoredImage store only
accumulates — the new state's images are the old ones followed by the pass's
— and only the explicit `clear_crawled_images` operation empties it. -/
theorem c2_pages_replaced_images_accumulate (now : String) (pass : PassOutcome)
    (s : AppState) (ps : List Page) (hrun : s.status.tag ≠ .running)
    (hok : pass.pages = .ok ps) :
    (force_crawl now pass s).2.pages = ps ∧
    (force_crawl now pass s).2.images = s.images ++ pass.passImages ∧
    (clear_crawled_images (force_crawl now pass s).2).images = [] := by
  obtain ⟨pimgs, ppages⟩ := pass
  simp only at hok
  subst hok
  by_cases hps : ps = []
  · subst hps
    simp [force_crawl, if_neg hrun, clear_crawled_images]
  · simp [force_crawl, if_neg hrun, hps, clear_crawled_images]

/-- Witness for the amended C2 at a concrete earlier-completed state. -/
theorem c2_pages_replaced_images_accumulate_witness :
    completedState.status.tag ≠ CrawlTag.running ∧
    laterPass.pages = .ok [pageB] ∧
    ((force_crawl "t" laterPass completedState).2.pages = [pageB] ∧
      (force_crawl "t" laterPass completedState).2.images =
        completedState.images ++ laterPass.passImages ∧
      (clear_crawled_images (force_crawl "t" laterPass completedState).2).images = []) :=
  ⟨fun h => CrawlTag.noConfusion h, rfl,
    c2_pages_replaced_images_accumulate "t" laterPass completedState [pageB]
      (fun h => CrawlTag.noConfusion h) rfl⟩

/-! ## Claim C10: crawl exception leaves pages intact, status error -/

/-- Claim C10: when the crawl pass raises, both trigger paths
(`force_crawl` and `auto_crawl_on_startup`) leave the existing page corpus
unchanged — the `crawled_data` assignment never executes — and set the status
to `error` with a message containing the exception text. -/
theorem c10_error_keeps_pages (now : String) (pass : PassOutcome) (s : AppState)
    (e : String) (hrun : s.status.tag ≠ .running) (herr : pass.pages = .error e) :
    (force_crawl now pass s).2.pages = s.pages ∧
    (force_crawl now pass s).2.status.tag = .error ∧
    e.data <:+: (force_crawl now pass s).2.status.message.data ∧
    (auto_crawl_on_startup true now pass s).pages = s.pages ∧
    (auto_crawl_on_startup true now pass s).status.tag = .error ∧
    e.data <:+: (auto_crawl_on_startup true now pass s).status.message.data := by
  obtain ⟨pimgs, ppages⟩ := pass
  simp only at herr
  subst herr
  refine ⟨?_, ?_, ?_, ?_, ?_, ?_⟩
  · simp [force_crawl, if_neg hrun]
  · simp [force_crawl, if_neg hrun]
  · simp only [force_crawl, if_neg hrun]
    exact ⟨"Force crawl error: ".data, [], by simp [String.data_append]⟩
  · simp [auto_crawl_on_startup]
  · simp [auto_crawl_on_startup]
  · simp only [auto_crawl_on_startup]
    exact ⟨"Crawl error: ".data, [], by simp [String.data_append]⟩

/-- Witness for C10: a pass raising `"boom"` from an earlier-completed
state. -/
theorem c10_error_keeps_pages_witness :
    completedState.status.tag ≠ CrawlTag.running ∧
    (PassOutcome.mk [] (.error "boom")).pages = .error "boom" ∧
    ((force_crawl "t" ⟨[], .error "boom"⟩ completedState).2.pages = completedState.pages ∧
      (force_crawl "t" ⟨[], .error "boom"⟩ completedState).2.status.tag = .error ∧
      ("boom" : String).data <:+:
        (force_crawl "t" ⟨[], .error "boom"⟩ completedState).2.status.message.data ∧
      (auto_crawl_on_startup true "t" ⟨[], .error "boom"⟩ completedState).pages =
        completedState.pages ∧
      (auto_crawl_on_startup true "t" ⟨[], .error "boom"⟩ completedState).status.tag =
        .error ∧
      ("boom" : String).data <:+:
        (auto_crawl_on_startup true "t" ⟨[], .error "boom"⟩
          completedState).status.message.data) :=
  ⟨fun h => CrawlTag.noConfusion h, rfl,
    c10_error_keeps_pages "t" ⟨[], .error "boom"⟩ completedState "boom"
      (fun h => CrawlTag.noConfusion h) rfl⟩

/-! ## Claim C3: crawl budget, uniqueness, scope -/

theorem mem_addLink (cfg : CrawlConfig) (pageUrl : String) (visited fr : List String)
    (href u : String) (hu : u ∈ addLink cfg pageUrl visited fr href) :
    u ∈ fr ∨ startsWithL u.data cfg.rootUrl.data = true := by
  simp only [addLink] at hu
  split at hu
  · split at hu
    · rename_i hcond
      rcases List.mem_append.mp hu with h | h
      · exact Or.inl h
      · have h1 : u = normalize_url pageUrl href := List.mem_singleton.mp h
        have h2 : startsWithL (normalize_url pageUrl href).data cfg.rootUrl.data = true := by
          have h3 := hcond
          simp only [Bool.and_eq_true] at h3
          exact h3.1.1
        rw [h1]
        exact Or.inr h2
    · exact Or.inl hu
  · exact Or.inl hu

theorem mem_discoverLinks (cfg : CrawlConfig) (pageUrl : String) (visited : List String) :
    ∀ (links frontier : List String) (u : String),
      u ∈ discoverLinks cfg pageUrl visited frontier links →
      u ∈ frontier ∨ startsWithL u.data cfg.rootUrl.data = true := by
  intro links
  induction links with
  | nil => intro frontier u hu; exact Or.inl hu
  | cons href rest ih =>
    intro frontier u hu
    have hu' : u ∈ discoverLinks cfg pageUrl visited
        (addLink cfg pageUrl visited frontier href) rest := hu
    rcases ih (addLink cfg pageUrl visited frontier href) u hu' with h | h
    · exact mem_addLink cfg pageUrl visited frontier href u h
    · exact Or.inr h

theorem crawlLoop_spec (cfg : CrawlConfig) (fetch : String → Option FetchedPage)
    (Q : String → Prop) (hQ : ∀ u, startsWithL u.data cfg.rootUrl.data = true → Q u)
    (visited frontier : List String) (results : List Page) :
    visited.length ≤ cfg.maxPages →
    (results.map Page.url).Nodup →
    (∀ p ∈ results, p.url ∈ visited) →
    (∀ u ∈ frontier, Q u) →
    (∀ p ∈ results, Q p.url) →
    (crawlLoop cfg fetch visited frontier results).1.length ≤ cfg.maxPages ∧
    ((crawlLoop cfg fetch visited frontier results).2.map Page.url).Nodup ∧
    (∀ p ∈ (crawlLoop cfg fetch visited frontier results).2, Q p.url) := by
  induction visited, frontier, results using crawlLoop.induct cfg fetch with
  | case1 visited results =>
    intro h1 h2 _ _ h5
    rw [crawlLoop]
    exact ⟨h1, h2, h5⟩
  | case2 visited url rest results hbudget =>
    intro h1 h2 _ _ h5
    rw [crawlLoop, if_pos hbudget]
    exact ⟨h1, h2, h5⟩
  | case3 visited url rest results hbudget hmem ih =>
    intro h1 h2 h3 h4 h5
    rw [crawlLoop, if_neg hbudget, if_pos hmem]
    exact ih h1 h2 h3 (fun u hu => h4 u (List.mem_cons_of_mem url hu)) h5
  | case4 visited url rest results hbudget hmem hfetch ih =>
    intro h1 h2 h3 h4 h5
    rw [crawlLoop, if_neg hbudget, if_neg hmem, hfetch]
    refine ih ?_ h2 ?_ (fun u hu => h4 u (List.mem_cons_of_mem url hu)) h5
    · have hlt : visited.length < cfg.maxPages := lt_of_not_le hbudget
      simpa using hlt
    · exact fun p hp => List.mem_cons_of_mem url (h3 p hp)
  | case5 visited url rest results hbudget hmem pg hfetch ih =>
    intro h1 h2 h3 h4 h5
    rw [crawlLoop, if_neg hbudget, if_neg hmem, hfetch]
    refine ih ?_ ?_ ?_ ?_ ?_
    · have hlt : visited.length < cfg.maxPages := lt_of_not_le hbudget
      simpa using hlt
    · rw [List.map_append, List.nodup_append]
      refine ⟨h2, List.nodup_singleton _, ?_⟩
      intro a ha hb
      obtain ⟨p, hp, hpa⟩ := List.mem_map.mp ha
      have hau : a = url := by simpa using hb
      subst hau
      have hv : p.url ∈ visited := h3 p hp
      rw [hpa] at hv
      exact hmem hv
    · intro p hp
      rcases List.mem_append.mp hp with h | h
      · exact List.mem_cons_of_mem url (h3 p h)
      · have hpeq : p = ⟨url, pageTitle url pg, pg.body, pg.images⟩ := List.mem_singleton.mp h
        rw [hpeq]
        exact List.mem_cons_self _ _
    · intro u hu
      rcases mem_discoverLinks cfg url (url :: visited) pg.links rest u hu with h | h
      · exact h4 u (List.mem_cons_of_mem url h)
      · exact hQ u h
    · intro p hp
      rcases List.mem_append.mp hp with h | h
      · exact h5 p h
      · have hpeq : p = ⟨url, pageTitle url pg, pg.body, pg.images⟩ := List.mem_singleton.mp h
        rw [hpeq]
        exact h4 url (List.mem_cons_self _ _)

/-- Claim C3: for every crawl configuration, fetch oracle and start URL, the
visited set never exceeds the `MAX_CRAWL_PAGES` budget, the returned pages
have pairwise-distinct URLs, and every returned URL other than the start URL
was enqueued as an absolute URL starting with the `ROOT_URL` string (the
origin-scope fence). -/
theorem c3_crawl_invariants (cfg : CrawlConfig) (fetch : String → Option FetchedPage)
    (startUrl : String) :
    (crawlLoop cfg fetch [] [startUrl] []).1.length ≤ cfg.maxPages ∧
    ((crawl_and_scrape cfg fetch startUrl).map Page.url).Nodup ∧
    ∀ p ∈ crawl_and_scrape cfg fetch startUrl,
      p.url = startUrl ∨ startsWithL p.url.data cfg.rootUrl.data = true := by
  have h := crawlLoop_spec cfg fetch
    (fun u => u = startUrl ∨ startsWithL u.data cfg.rootUrl.data = true)
    (fun u hu => Or.inr hu) [] [startUrl] []
    (by simp) (by simp) (by simp) ?_ (by simp)
  · exact ⟨h.1, h.2.1, h.2.2⟩
  · intro u hu
    exact Or.inl (List.mem_singleton.mp hu)

/-! ## Claim C9: URL-level lemmas for `normalize_url` -/

theorem takeWhile_all_append (p : Char → Bool) (a b : List Char)
    (ha : ∀ c ∈ a, p c = true) :
    (a ++ b).takeWhile p = a ++ b.takeWhile p := by
  induction a with
  | nil => simp
  | cons x xs ih =>
    have hx : p x = true := ha x (List.mem_cons_self _ _)
    simp only [List.cons_append, List.takeWhile_cons, hx, if_true]
    rw [ih fun c hc => ha c (List.mem_cons_of_mem x hc)]

theorem dropWhile_all_append (p : Char → Bool) (a b : List Char)
    (ha : ∀ c ∈ a, p c = true) :
    (a ++ b).dropWhile p = b.dropWhile p := by
  induction a with
  | nil => simp
  | cons x xs ih =>
    have hx : p x = true := ha x (List.mem_cons_self _ _)
    simp only [List.cons_append, List.dropWhile_cons, hx, if_true]
    exact ih fun c hc => ha c (List.mem_cons_of_mem x hc)

theorem takeWhile_of_all (p : Char → Bool) (l : List Char) (h : ∀ c ∈ l, p c = true) :
    l.takeWhile p = l := by
  induction l with
  | nil => simp
  | cons x xs ih =>
    simp only [List.takeWhile_cons, h x (List.mem_cons_self _ _), if_true]
    rw [ih fun c hc => h c (List.mem_cons_of_mem x hc)]

theorem dropWhile_of_all (p : Char → Bool) (l : List Char) (h : ∀ c ∈ l, p c = true) :
    l.dropWhile p = [] := by
  induction l with
  | nil => simp
  | cons x xs ih =>
    simp only [List.dropWhile_cons, h x (List.mem_cons_self _ _), if_true]
    exact ih fun c hc => h c (List.mem_cons_of_mem x hc)

theorem mem_takeWhile_sub {p : Char → Bool} {l : List Char} {a : Char}
    (h : a ∈ l.takeWhile p) : a ∈ l :=
  (List.takeWhile_sublist p).mem h

theorem mem_dropWhile_sub {p : Char → Bool} {l : List Char} {a : Char}
    (h : a ∈ l.dropWhile p) : a ∈ l :=
  (List.dropWhile_sublist p).mem h

theorem mem_drop_sub {l : List Char} {n : Nat} {a : Char} (h : a ∈ l.drop n) : a ∈ l :=
  (List.drop_sublist n l).mem h

theorem mem_take_sub {l : List Char} {n : Nat} {a : Char} (h : a ∈ l.take n) : a ∈ l :=
  (List.take_sublist n l).mem h

theorem mem_afterLastSlash_sub {l : List Char} {a : Char} (h : a ∈ afterLastSlash l) :
    a ∈ l := by
  rw [afterLastSlash] at h
  rw [List.mem_reverse] at h
  have := mem_takeWhile_sub h
  rwa [List.mem_reverse] at this

theorem afterLastSlash_no_slash (l : List Char) : '/' ∉ afterLastSlash l := by
  intro h
  rw [afterLastSlash, List.mem_reverse] at h
  have := List.mem_takeWhile_imp h
  simp at this

theorem before_append_after (l : List Char) :
    beforeLastSlashIncl l ++ afterLastSlash l = l := by
  rw [beforeLastSlashIncl, afterLastSlash, ← List.reverse_append,
    List.takeWhile_append_dropWhile, List.reverse_reverse]

theorem afterLastSlash_of_no_slash (l : List Char) (h : '/' ∉ l) :
    afterLastSlash l = l := by
  rw [afterLastSlash, takeWhile_of_all, List.reverse_reverse]
  intro c hc
  rw [List.mem_reverse] at hc
  simp only [bne_iff_ne, ne_eq]
  intro hcs
  rw [hcs] at hc
  exact h hc

theorem afterLastSlash_append (a b : List Char) (hb : '/' ∉ b) :
    afterLastSlash (a ++ b) = afterLastSlash a ++ b := by
  rw [afterLastSlash, afterLastSlash, List.reverse_append,
    takeWhile_all_append _ b.reverse a.reverse
      (by
        intro c hc
        rw [List.mem_reverse] at hc
        simp only [bne_iff_ne, ne_eq]
        intro hcs
        rw [hcs] at hc
        exact hb hc),
    List.reverse_append, List.reverse_reverse]

theorem beforeLastSlashIncl_getLast (l : List Char) (h : '/' ∈ l) :
    ∃ t, beforeLastSlashIncl l = t ++ ['/'] := by
  rw [beforeLastSlashIncl]
  have h1 : '/' ∈ l.reverse := List.mem_reverse.mpr h
  have h2 : l.reverse.dropWhile (· != '/') ≠ [] := by
    intro hnil
    rw [List.dropWhile_eq_nil_iff] at hnil
    have := hnil _ h1
    simp at this
  obtain ⟨c, t, hct⟩ := List.exists_cons_of_ne_nil h2
  have hc : ¬ (c != '/') = true := by
    have hh := List.head_dropWhile_not (· != '/') l.reverse h2
    simp only [hct, List.head_cons] at hh
    simp [hh]
  have hc' : c = '/' := by simpa using hc
  rw [hct, hc']
  exact ⟨t.reverse, by simp⟩

theorem afterLastSlash_append_slash (a b : List Char) (ha : ∃ t, a = t ++ ['/'])
    (hb : '/' ∉ b) : afterLastSlash (a ++ b) = b := by
  obtain ⟨t, rfl⟩ := ha
  rw [afterLastSlash, List.reverse_append, List.reverse_append]
  simp only [List.reverse_cons, List.reverse_nil, List.nil_append, List.cons_append]
  rw [takeWhile_all_append _ b.reverse ('/' :: t.reverse)
    (by
      intro c hc
      rw [List.mem_reverse] at hc
      simp only [bne_iff_ne, ne_eq]
      intro hcs
      rw [hcs] at hc
      exact hb hc)]
  simp [List.takeWhile_cons]

theorem pyLowerChar_hash {c : Char} (h : pyLowerChar c = '#') : c = '#' := by
  rw [pyLowerChar] at h
  cases hf : lowerPairs.find? fun p => p.1 == c with
  | none => rw [hf] at h; simpa using h
  | some pr =>
    rw [hf] at h
    simp at h
    have hmem : pr ∈ lowerPairs := List.mem_of_find?_eq_some hf
    have hall : ∀ p ∈ lowerPairs, p.2 ≠ '#' := by decide
    exact absurd h (hall pr hmem)

theorem hash_notin_pyLower {l : List Char} (h : '#' ∉ l) : '#' ∉ pyLower l := by
  intro hc
  obtain ⟨d, hd, hdc⟩ := List.mem_map.mp hc
  rw [pyLowerChar_hash hdc] at hd
  exact h hd

theorem beforeLastSlashIncl_append (a b : List Char) (hb : '/' ∉ b) :
    beforeLastSlashIncl (a ++ b) = beforeLastSlashIncl a := by
  rw [beforeLastSlashIncl, beforeLastSlashIncl, List.reverse_append,
    dropWhile_all_append _ b.reverse a.reverse
      (by
        intro c hc
        rw [List.mem_reverse] at hc
        simp only [bne_iff_ne, ne_eq]
        intro hcs
        rw [hcs] at hc
        exact hb hc)]

theorem splitParams_id (p : List Char) (h : ';' ∉ afterLastSlash p) :
    splitParams p = (p, []) := by
  simp only [splitParams]
  by_cases hs : '/' ∈ p
  · rw [if_pos hs, if_neg h]
  · rw [if_neg hs]
    have hp : ';' ∉ p := by
      rw [← afterLastSlash_of_no_slash p hs]
      exact h
    rw [takeWhile_of_all _ p
        (by
          intro c hc
          simp only [bne_iff_ne, ne_eq]
          intro hcs
          rw [hcs] at hc
          exact hp hc),
      dropWhile_of_all _ p
        (by
          intro c hc
          simp only [bne_iff_ne, ne_eq]
          intro hcs
          rw [hcs] at hc
          exact hp hc)]
    simp

theorem splitParams_recomb (p pr : List Char) (hp : ';' ∉ afterLastSlash p)
    (hpr : '/' ∉ pr) :
    splitParams (p ++ ';' :: pr) = (p, pr) := by
  have hsemi_pr : '/' ∉ (';' :: pr : List Char) := by
    intro hc
    rcases List.mem_cons.mp hc with h | h
    · exact absurd h.symm (by decide)
    · exact hpr h
  have hafter : ∀ c ∈ afterLastSlash p, (c != ';') = true := by
    intro c hc
    simp only [bne_iff_ne, ne_eq]
    intro hcs
    rw [hcs] at hc
    exact hp hc
  simp only [splitParams]
  by_cases hs : '/' ∈ p
  · have hsl : '/' ∈ p ++ ';' :: pr := List.mem_append.mpr (Or.inl hs)
    rw [if_pos hsl]
    have hseg : afterLastSlash (p ++ ';' :: pr) = afterLastSlash p ++ ';' :: pr :=
      afterLastSlash_append p (';' :: pr) hsemi_pr
    have hsemi_mem : ';' ∈ afterLastSlash (p ++ ';' :: pr) := by
      rw [hseg]
      exact List.mem_append.mpr (Or.inr (List.mem_cons_self _ _))
    rw [if_pos hsemi_mem, hseg]
    have htake : (afterLastSlash p ++ ';' :: pr).takeWhile (· != ';') = afterLastSlash p := by
      rw [takeWhile_all_append _ _ _ hafter]
      simp [List.takeWhile_cons]
    have hdrop : (afterLastSlash p ++ ';' :: pr).dropWhile (· != ';') = ';' :: pr := by
      rw [dropWhile_all_append _ _ _ hafter]
      simp [List.dropWhile_cons]
    rw [htake, hdrop, beforeLastSlashIncl_append p (';' :: pr) hsemi_pr]
    simp only [List.drop_succ_cons, List.drop_zero]
    rw [before_append_after p]
  · have hsl : '/' ∉ p ++ ';' :: pr := by
      intro hc
      rcases List.mem_append.mp hc with h | h
      · exact hs h
      · exact hsemi_pr h
    rw [if_neg hsl]
    have hpns : ';' ∉ p := by
      rw [← afterLastSlash_of_no_slash p hs]
      exact hp
    have hall : ∀ c ∈ p, (c != ';') = true := by
      intro c hc
      simp only [bne_iff_ne, ne_eq]
      intro hcs
      rw [hcs] at hc
      exact hpns hc
    rw [takeWhile_all_append _ _ _ hall, dropWhile_all_append _ _ _ hall]
    simp [List.takeWhile_cons, List.dropWhile_cons]

theorem mem_beforeLastSlashIncl_sub {l : List Char} {a : Char}
    (h : a ∈ beforeLastSlashIncl l) : a ∈ l := by
  rw [beforeLastSlashIncl, List.mem_reverse] at h
  have := mem_dropWhile_sub h
  rwa [List.mem_reverse] at this

theorem mem_splitParams_fst_sub {p : List Char} {a : Char}
    (h : a ∈ (splitParams p).1) : a ∈ p := by
  simp only [splitParams] at h
  split at h
  · split at h
    · rcases List.mem_append.mp h with h1 | h1
      · exact mem_beforeLastSlashIncl_sub h1
      · exact mem_afterLastSlash_sub (mem_takeWhile_sub h1)
    · exact h
  · exact mem_takeWhile_sub h

theorem mem_splitParams_snd_sub {p : List Char} {a : Char}
    (h : a ∈ (splitParams p).2) : a ∈ p := by
  simp only [splitParams] at h
  split at h
  · split at h
    · exact mem_afterLastSlash_sub (mem_dropWhile_sub (mem_drop_sub h))
    · exact absurd h (List.not_mem_nil _)
  · exact mem_dropWhile_sub (mem_drop_sub h)

theorem splitParams_snd_no_slash (p : List Char) : '/' ∉ (splitParams p).2 := by
  intro h
  simp only [splitParams] at h
  split at h
  · split at h
    · exact afterLastSlash_no_slash p (mem_dropWhile_sub (mem_drop_sub h))
    · exact absurd h (List.not_mem_nil _)
  · rename_i hs
    exact hs (mem_dropWhile_sub (mem_drop_sub h))

theorem splitParams_fst_semi (p : List Char) : ';' ∉ afterLastSlash (splitParams p).1 := by
  simp only [splitParams]
  by_cases hs : '/' ∈ p
  · rw [if_pos hs]
    by_cases hsemi : ';' ∈ afterLastSlash p
    · rw [if_pos hsemi]
      have htw : '/' ∉ (afterLastSlash p).takeWhile (· != ';') := by
        intro hc
        exact afterLastSlash_no_slash p (mem_takeWhile_sub hc)
      rw [afterLastSlash_append_slash _ _ (beforeLastSlashIncl_getLast p hs) htw]
      intro hc
      have := List.mem_takeWhile_imp hc
      simp at this
    · rw [if_neg hsemi]
      exact hsemi
  · rw [if_neg hs]
    have hfree : '/' ∉ p.takeWhile (· != ';') := by
      intro hc
      exact hs (mem_takeWhile_sub hc)
    rw [afterLastSlash_of_no_slash _ hfree]
    intro hc
    have := List.mem_takeWhile_imp hc
    simp at this

theorem mem_cleanUrl_sub {url : List Char} {a : Char} (h : a ∈ cleanUrl url) : a ∈ url :=
  mem_dropWhile_sub (List.mem_filter.mp h).1

theorem mem_cleanScheme_sub {s : List Char} {a : Char} (h : a ∈ cleanScheme s) : a ∈ s :=
  mem_dropWhile_sub (List.mem_reverse.mp
    (mem_dropWhile_sub (List.mem_reverse.mp (List.mem_filter.mp h).1)))

theorem cleanUrl_no_dropped {url : List Char} :
    ∀ c ∈ cleanUrl url, droppedUrlChar c = false := by
  intro c hc
  have := (List.mem_filter.mp hc).2
  simpa using this

theorem cleanUrl_eq_self (l : List Char)
    (hhead : ∀ c t, l = c :: t → c0OrSpace c = false)
    (hall : ∀ c ∈ l, droppedUrlChar c = false) : cleanUrl l = l := by
  have hdw : l.dropWhile c0OrSpace = l := by
    rcases hl : l with _ | ⟨c, t⟩
    · rfl
    · rw [List.dropWhile_cons, hhead c t hl]
      simp
  rw [cleanUrl, hdw]
  refine List.filter_eq_self.mpr ?_
  intro a ha
  simp [hall a ha]

theorem mem_schemeSplit_snd_sub {url dflt : List Char} {a : Char}
    (h : a ∈ (schemeSplit url dflt).2) : a ∈ url := by
  simp only [schemeSplit] at h
  split at h
  · exact mem_dropWhile_sub (mem_drop_sub h)
  · exact h

theorem schemeSplit_fst_no_hash (url dflt : List Char) (h : '#' ∉ dflt) :
    '#' ∉ (schemeSplit url dflt).1 := by
  simp only [schemeSplit]
  split
  · rename_i hcond
    intro hc
    obtain ⟨d, hd, hdc⟩ := List.mem_map.mp hc
    rw [pyLowerChar_hash hdc] at hd
    rw [Bool.and_eq_true] at hcond
    rcases hml : url.takeWhile (· != ':') with _ | ⟨c0, cs⟩
    · rw [hml] at hd
      exact absurd hd (List.not_mem_nil _)
    · rw [hml] at hd
      have hcond2 := hcond.2
      rw [hml] at hcond2
      simp only [schemeOk, Bool.and_eq_true] at hcond2
      rcases List.mem_cons.mp hd with h0 | h0
      · rw [← h0] at hcond2
        exact absurd hcond2.1 (by decide)
      · have := (List.all_eq_true.mp hcond2.2) _ h0
        exact absurd this (by decide)
  · exact h

theorem mem_netlocSplit_snd_sub {rest : List Char} {a : Char}
    (h : a ∈ (netlocSplit rest).2) : a ∈ rest := by
  simp only [netlocSplit] at h
  split at h
  · exact mem_drop_sub (mem_dropWhile_sub h)
  · exact h

theorem mem_netlocSplit_fst_sub {rest : List Char} {a : Char}
    (h : a ∈ (netlocSplit rest).1) : a ∈ rest := by
  simp only [netlocSplit] at h
  split at h
  · exact mem_drop_sub (mem_takeWhile_sub h)
  · exact absurd h (List.not_mem_nil _)

theorem netlocSplit_fst_clean (rest : List Char) :
    ∀ c ∈ (netlocSplit rest).1, netlocChar c = true := by
  intro c hc
  simp only [netlocSplit] at hc
  split at hc
  · exact List.mem_takeWhile_imp hc
  · exact absurd hc (List.not_mem_nil _)

theorem pyUrlsplit_path_no_hash (url dflt : List Char) : '#' ∉ (pyUrlsplit url dflt).path := by
  intro h
  simp only [pyUrlsplit] at h
  have := List.mem_takeWhile_imp (mem_takeWhile_sub h)
  simp at this

theorem pyUrlsplit_path_no_qm (url dflt : List Char) : '?' ∉ (pyUrlsplit url dflt).path := by
  intro h
  simp only [pyUrlsplit] at h
  have := List.mem_takeWhile_imp h
  simp at this

theorem pyUrlsplit_query_no_hash (url dflt : List Char) : '#' ∉ (pyUrlsplit url dflt).query := by
  intro h
  simp only [pyUrlsplit] at h
  have := List.mem_takeWhile_imp (mem_dropWhile_sub (mem_drop_sub h))
  simp at this

theorem pyUrlsplit_netloc_clean (url dflt : List Char) :
    ∀ c ∈ (pyUrlsplit url dflt).netloc, netlocChar c = true := by
  intro c hc
  simp only [pyUrlsplit] at hc
  exact netlocSplit_fst_clean _ c hc

theorem pyUrlsplit_scheme_no_hash (url dflt : List Char) (h : '#' ∉ dflt) :
    '#' ∉ (pyUrlsplit url dflt).scheme := by
  simp only [pyUrlsplit]
  exact schemeSplit_fst_no_hash (cleanUrl url) (cleanScheme dflt)
    (fun hc => h (mem_cleanScheme_sub hc))

theorem pyUrlsplit_fragment_nil (url dflt : List Char) (h : '#' ∉ url) :
    (pyUrlsplit url dflt).fragment = [] := by
  simp only [pyUrlsplit]
  have hsub : '#' ∉ (netlocSplit (schemeSplit (cleanUrl url) (cleanScheme dflt)).2).2 := by
    intro hc
    exact h (mem_cleanUrl_sub (mem_schemeSplit_snd_sub (mem_netlocSplit_snd_sub hc)))
  rw [dropWhile_of_all _ _
    (by
      intro c hc
      simp only [bne_iff_ne, ne_eq]
      intro hcs
      rw [hcs] at hc
      exact hsub hc)]
  simp

theorem pyUrlparse_netloc_clean (url dflt : List Char) :
    ∀ c ∈ (pyUrlparse url dflt).netloc, netlocChar c = true := by
  intro c hc
  simp only [pyUrlparse] at hc
  split at hc
  · exact pyUrlsplit_netloc_clean url dflt c hc
  · exact pyUrlsplit_netloc_clean url dflt c hc

theorem pyUrlparse_scheme_eq (url dflt : List Char) :
    (pyUrlparse url dflt).scheme = (pyUrlsplit url dflt).scheme := by
  simp only [pyUrlparse]
  split <;> rfl

theorem pyUrlparse_query_eq (url dflt : List Char) :
    (pyUrlparse url dflt).query = (pyUrlsplit url dflt).query := by
  simp only [pyUrlparse]
  split <;> rfl

theorem pyUrlparse_fragment_eq (url dflt : List Char) :
    (pyUrlparse url dflt).fragment = (pyUrlsplit url dflt).fragment := by
  simp only [pyUrlparse]
  split <;> rfl

theorem pyUrlparse_path_sub (url dflt : List Char) :
    ∀ c ∈ (pyUrlparse url dflt).path, c ∈ (pyUrlsplit url dflt).path := by
  intro c hc
  simp only [pyUrlparse] at hc
  split at hc
  · exact mem_splitParams_fst_sub hc
  · exact hc

theorem pyUrlparse_params_sub (url dflt : List Char) :
    ∀ c ∈ (pyUrlparse url dflt).params, c ∈ (pyUrlsplit url dflt).path := by
  intro c hc
  simp only [pyUrlparse] at hc
  split at hc
  · exact mem_splitParams_snd_sub hc
  · exact absurd hc (List.not_mem_nil _)

theorem pyUrlparse_params_no_slash (url dflt : List Char) :
    '/' ∉ (pyUrlparse url dflt).params := by
  intro hc
  simp only [pyUrlparse] at hc
  split at hc
  · exact splitParams_snd_no_slash _ hc
  · exact absurd hc (List.not_mem_nil _)

theorem pyUrlparse_path_semi (url dflt : List Char)
    (h : (pyUrlparse url dflt).scheme ∈ usesParams) :
    ';' ∉ afterLastSlash (pyUrlparse url dflt).path := by
  rw [pyUrlparse_scheme_eq] at h
  simp only [pyUrlparse]
  split
  · exact splitParams_fst_semi _
  · rename_i hguard
    rw [not_and_or] at hguard
    rcases hguard with hg | hg
    · exact absurd h hg
    · intro hc
      exact hg (mem_afterLastSlash_sub hc)

theorem mem_pyUrlsplit_netloc_sub {url dflt : List Char} {a : Char}
    (h : a ∈ (pyUrlsplit url dflt).netloc) : a ∈ cleanUrl url := by
  simp only [pyUrlsplit] at h
  exact mem_schemeSplit_snd_sub (mem_netlocSplit_fst_sub h)

theorem mem_pyUrlsplit_path_sub {url dflt : List Char} {a : Char}
    (h : a ∈ (pyUrlsplit url dflt).path) : a ∈ cleanUrl url := by
  simp only [pyUrlsplit] at h
  exact mem_schemeSplit_snd_sub (mem_netlocSplit_snd_sub
    (mem_takeWhile_sub (mem_takeWhile_sub h)))

theorem mem_pyUrlsplit_query_sub {url dflt : List Char} {a : Char}
    (h : a ∈ (pyUrlsplit url dflt).query) : a ∈ cleanUrl url := by
  simp only [pyUrlsplit] at h
  exact mem_schemeSplit_snd_sub (mem_netlocSplit_snd_sub
    (mem_takeWhile_sub (mem_dropWhile_sub (mem_drop_sub h))))

theorem pyUrlparse_netloc_no_dropped (url dflt : List Char) :
    ∀ c ∈ (pyUrlparse url dflt).netloc, droppedUrlChar c = false := by
  intro c hc
  simp only [pyUrlparse] at hc
  split at hc <;> exact cleanUrl_no_dropped c (mem_pyUrlsplit_netloc_sub hc)

theorem pyUrlparse_path_no_dropped (url dflt : List Char) :
    ∀ c ∈ (pyUrlparse url dflt).path, droppedUrlChar c = false := by
  intro c hc
  exact cleanUrl_no_dropped c (mem_pyUrlsplit_path_sub (pyUrlparse_path_sub url dflt c hc))

theorem pyUrlparse_params_no_dropped (url dflt : List Char) :
    ∀ c ∈ (pyUrlparse url dflt).params, droppedUrlChar c = false := by
  intro c hc
  exact cleanUrl_no_dropped c (mem_pyUrlsplit_path_sub (pyUrlparse_params_sub url dflt c hc))

theorem pyUrlparse_query_no_dropped (url dflt : List Char) :
    ∀ c ∈ (pyUrlparse url dflt).query, droppedUrlChar c = false := by
  intro c hc
  rw [pyUrlparse_query_eq] at hc
  exact cleanUrl_no_dropped c (mem_pyUrlsplit_query_sub hc)

theorem mem_ite_append_cons {cond : Prop} [Decidable cond] {a b : List Char} {x c : Char}
    (h : c ∈ (if cond then a ++ x :: b else a)) : c ∈ a ∨ c = x ∨ c ∈ b := by
  split at h
  · rcases List.mem_append.mp h with h1 | h1
    · exact Or.inl h1
    · rcases List.mem_cons.mp h1 with h2 | h2
      · exact Or.inr (Or.inl h2)
      · exact Or.inr (Or.inr h2)
  · exact Or.inl h

theorem mem_ite_scheme {cond : Prop} [Decidable cond] {s u2 : List Char} {c : Char}
    (h : c ∈ (if cond then s ++ ':' :: u2 else u2)) : c ∈ s ∨ c = ':' ∨ c ∈ u2 := by
  split at h
  · rcases List.mem_append.mp h with h1 | h1
    · exact Or.inl h1
    · rcases List.mem_cons.mp h1 with h2 | h2
      · exact Or.inr (Or.inl h2)
      · exact Or.inr (Or.inr h2)
  · exact Or.inr (Or.inr h)

theorem mem_ite_netloc {cond cond2 : Prop} [Decidable cond] [Decidable cond2]
    {nl p : List Char} {c : Char}
    (h : c ∈ (if cond then '/' :: '/' :: (nl ++ (if cond2 then '/' :: p else p)) else p)) :
    c = '/' ∨ c ∈ nl ∨ c ∈ p := by
  split at h
  · rcases List.mem_cons.mp h with h1 | h1
    · exact Or.inl h1
    · rcases List.mem_cons.mp h1 with h2 | h2
      · exact Or.inl h2
      · rcases List.mem_append.mp h2 with h3 | h3
        · exact Or.inr (Or.inl h3)
        · split at h3
          · rcases List.mem_cons.mp h3 with h4 | h4
            · exact Or.inl h4
            · exact Or.inr (Or.inr h4)
          · exact Or.inr (Or.inr h3)
  · exact Or.inr (Or.inr h)

theorem mem_pyUrlunsplit {s nl p q f : List Char} {c : Char}
    (h : c ∈ pyUrlunsplit s nl p q f) :
    c ∈ s ∨ c ∈ nl ∨ c ∈ p ∨ c ∈ q ∨ c ∈ f ∨ c = '/' ∨ c = ':' ∨ c = '?' ∨ c = '#' := by
  simp only [pyUrlunsplit] at h
  rcases mem_ite_append_cons h with h | h | h
  rotate_left
  · tauto
  · tauto
  rcases mem_ite_append_cons h with h | h | h
  rotate_left
  · tauto
  · tauto
  rcases mem_ite_scheme h with h | h | h
  · tauto
  · tauto
  rcases mem_ite_netloc h with h | h | h <;> tauto

theorem mem_pyUrlunparse {s nl p pr q f : List Char} {c : Char}
    (h : c ∈ pyUrlunparse s nl p pr q f) :
    c ∈ s ∨ c ∈ nl ∨ c ∈ p ∨ c ∈ pr ∨ c ∈ q ∨ c ∈ f ∨
      c = '/' ∨ c = ':' ∨ c = '?' ∨ c = ';' ∨ c = '#' := by
  rw [pyUrlunparse] at h
  have h1 := mem_pyUrlunsplit h
  rcases h1 with h1 | h1 | h1 | h1 | h1 | h1 | h1 | h1 | h1
  · tauto
  · tauto
  · by_cases hpr : pr ≠ []
    · rw [if_pos hpr] at h1
      rcases List.mem_append.mp h1 with h2 | h2
      · tauto
      · rcases List.mem_cons.mp h2 with h3 | h3
        · tauto
        · tauto
    · rw [if_neg hpr] at h1
      tauto
  all_goals tauto

theorem mem_splitOnChar {sep x : Char} {l part : List Char}
    (hp : part ∈ splitOnChar sep l) (hx : x ∈ part) : x ∈ l := by
  induction l generalizing part with
  | nil =>
    simp only [splitOnChar, List.mem_singleton] at hp
    rw [hp] at hx
    exact absurd hx (List.not_mem_nil _)
  | cons y ys ih =>
    simp only [splitOnChar] at hp
    split at hp
    · rcases List.mem_cons.mp hp with h | h
      · rw [h] at hx
        exact absurd hx (List.not_mem_nil _)
      · exact List.mem_cons_of_mem y (ih h hx)
    · rcases hys : splitOnChar sep ys with _ | ⟨h0, t0⟩
      · rw [hys] at hp
        simp only [List.mem_singleton] at hp
        rw [hp] at hx
        rcases List.mem_cons.mp hx with h | h
        · rw [h]; exact List.mem_cons_self _ _
        · exact absurd h (List.not_mem_nil _)
      · rw [hys] at hp
        rcases List.mem_cons.mp hp with h | h
        · rw [h] at hx
          rcases List.mem_cons.mp hx with h2 | h2
          · rw [h2]; exact List.mem_cons_self _ _
          · refine List.mem_cons_of_mem y (ih ?_ h2)
            rw [hys]
            exact List.mem_cons_self _ _
        · refine List.mem_cons_of_mem y (ih ?_ hx)
          rw [hys]
          exact List.mem_cons_of_mem _ h

theorem mem_joinSlash {x : Char} {parts : List (List Char)} (h : x ∈ joinSlash parts) :
    x = '/' ∨ ∃ part ∈ parts, x ∈ part := by
  induction parts with
  | nil => simp [joinSlash] at h
  | cons p rest ih =>
    cases rest with
    | nil =>
      simp only [joinSlash] at h
      exact Or.inr ⟨p, List.mem_singleton.mpr rfl, h⟩
    | cons q qs =>
      simp only [joinSlash] at h
      rcases List.mem_append.mp h with h1 | h1
      · exact Or.inr ⟨p, List.mem_cons_self _ _, h1⟩
      · rcases List.mem_cons.mp h1 with h2 | h2
        · exact Or.inl h2
        · rcases ih h2 with h3 | ⟨part, hp, hx⟩
          · exact Or.inl h3
          · exact Or.inr ⟨part, List.mem_cons_of_mem p hp, hx⟩

theorem mem_filterMiddleAux_sub {parts : List (List Char)} {part : List Char}
    (h : part ∈ filterMiddleAux parts) : part ∈ parts := by
  induction parts with
  | nil => simpa [filterMiddleAux] using h
  | cons b rest ih =>
    cases rest with
    | nil => simpa [filterMiddleAux] using h
    | cons c cs =>
      simp only [filterMiddleAux] at h
      split at h
      · exact List.mem_cons_of_mem b (ih h)
      · rcases List.mem_cons.mp h with h1 | h1
        · rw [h1]; exact List.mem_cons_self _ _
        · exact List.mem_cons_of_mem b (ih h1)

theorem mem_filterMiddle_sub {parts : List (List Char)} {part : List Char}
    (h : part ∈ filterMiddle parts) : part ∈ parts := by
  cases parts with
  | nil => simpa [filterMiddle] using h
  | cons a rest =>
    cases rest with
    | nil => simpa [filterMiddle] using h
    | cons b bs =>
      simp only [filterMiddle] at h
      rcases List.mem_cons.mp h with h1 | h1
      · rw [h1]; exact List.mem_cons_self _ _
      · exact List.mem_cons_of_mem a (mem_filterMiddleAux_sub h1)

theorem mem_resolveFold_sub {segs : List (List Char)} {acc : List (List Char)}
    {part : List Char}
    (h : part ∈ segs.foldl
      (fun acc seg =>
        if seg = ['.', '.'] then acc.dropLast
        else if seg = ['.'] then acc
        else acc ++ [seg]) acc) :
    part ∈ acc ∨ part ∈ segs := by
  induction segs generalizing acc with
  | nil => exact Or.inl h
  | cons s rest ih =>
    simp only [List.foldl_cons] at h
    rcases ih h with h1 | h1
    · split at h1
      · exact Or.inl (List.Sublist.mem h1 (List.dropLast_sublist _))
      · split at h1
        · exact Or.inl h1
        · rcases List.mem_append.mp h1 with h2 | h2
          · exact Or.inl h2
          · rw [List.mem_singleton.mp h2]
            exact Or.inr (List.mem_cons_self _ _)
    · exact Or.inr (List.mem_cons_of_mem s h1)

theorem mem_resolveSegs_sub {segs : List (List Char)} {part : List Char}
    (h : part ∈ resolveSegs segs) : part ∈ segs ∨ part = [] := by
  simp only [resolveSegs] at h
  split at h
  · rcases List.mem_append.mp h with h1 | h1
    · rcases mem_resolveFold_sub h1 with h2 | h2
      · exact absurd h2 (List.not_mem_nil _)
      · exact Or.inl h2
    · exact Or.inr (List.mem_singleton.mp h1)
  · rcases mem_resolveFold_sub h with h2 | h2
    · exact absurd h2 (List.not_mem_nil _)
    · exact Or.inl h2

theorem no_hash_of_netlocChar {nl : List Char} (h : ∀ c ∈ nl, netlocChar c = true) :
    '#' ∉ nl := by
  intro hc
  have := h _ hc
  exact absurd this (by decide)

theorem no_qm_of_netlocChar {nl : List Char} (h : ∀ c ∈ nl, netlocChar c = true) :
    '?' ∉ nl := by
  intro hc
  have := h _ hc
  exact absurd this (by decide)

theorem no_slash_of_netlocChar {nl : List Char} (h : ∀ c ∈ nl, netlocChar c = true) :
    '/' ∉ nl := by
  intro hc
  have := h _ hc
  exact absurd this (by decide)

theorem mem_joinSegments {Bpath Upath : List Char} {part : List Char} {x : Char}
    (hp : part ∈ joinSegments Bpath Upath) (hx : x ∈ part) :
    x ∈ Bpath ∨ x ∈ Upath := by
  simp only [joinSegments] at hp
  split at hp
  · exact Or.inr (mem_splitOnChar hp hx)
  · rcases List.mem_append.mp (mem_filterMiddle_sub hp) with h | h
    · split at h
      · exact Or.inl (mem_splitOnChar (List.Sublist.mem h (List.dropLast_sublist _)) hx)
      · exact Or.inl (mem_splitOnChar h hx)
    · exact Or.inr (mem_splitOnChar h hx)

theorem mem_resolvedPath {Bpath Upath : List Char} {x : Char}
    (h : x ∈ resolvedPath Bpath Upath) :
    x ∈ Bpath ∨ x ∈ Upath ∨ x = '/' := by
  simp only [resolvedPath] at h
  split at h
  · rcases List.mem_singleton.mp h with rfl
    exact Or.inr (Or.inr rfl)
  · rcases mem_joinSlash h with h1 | ⟨part, hp, hx⟩
    · exact Or.inr (Or.inr h1)
    · rcases mem_resolveSegs_sub hp with h2 | h2
      · rcases mem_joinSegments h2 hx with h3 | h3
        · exact Or.inl h3
        · exact Or.inr (Or.inl h3)
      · rw [h2] at hx
        exact absurd hx (List.not_mem_nil _)

theorem pyUrlunsplit_no_hash {s nl p q : List Char}
    (hs : '#' ∉ s) (hnl : '#' ∉ nl) (hp : '#' ∉ p) (hq : '#' ∉ q) :
    '#' ∉ pyUrlunsplit s nl p q [] := by
  intro h
  simp only [pyUrlunsplit] at h
  rw [if_neg (by simp)] at h
  rcases mem_ite_append_cons h with h | h | h
  · rcases mem_ite_scheme h with h | h | h
    · exact hs h
    · exact absurd h (by decide)
    · rcases mem_ite_netloc h with h | h | h
      · exact absurd h (by decide)
      · exact hnl h
      · exact hp h
  · exact absurd h (by decide)
  · exact hq h

theorem pyUrlunparse_no_hash {s nl p pr q : List Char}
    (hs : '#' ∉ s) (hnl : '#' ∉ nl) (hp : '#' ∉ p) (hpr : '#' ∉ pr) (hq : '#' ∉ q) :
    '#' ∉ pyUrlunparse s nl p pr q [] := by
  rw [pyUrlunparse]
  refine pyUrlunsplit_no_hash hs hnl ?_ hq
  split
  · intro hc
    rcases List.mem_append.mp hc with h1 | h1
    · exact hp h1
    · rcases List.mem_cons.mp h1 with h2 | h2
      · exact absurd h2 (by decide)
      · exact hpr h2
  · exact hp

theorem pyUrlparse_scheme_no_hash (url dflt : List Char) (h : '#' ∉ dflt) :
    '#' ∉ (pyUrlparse url dflt).scheme := by
  rw [pyUrlparse_scheme_eq]
  exact pyUrlsplit_scheme_no_hash url dflt h

theorem pyUrlparse_path_no_hash (url dflt : List Char) : '#' ∉ (pyUrlparse url dflt).path := by
  intro hc
  exact pyUrlsplit_path_no_hash url dflt (pyUrlparse_path_sub url dflt _ hc)

theorem pyUrlparse_path_no_qm (url dflt : List Char) : '?' ∉ (pyUrlparse url dflt).path := by
  intro hc
  exact pyUrlsplit_path_no_qm url dflt (pyUrlparse_path_sub url dflt _ hc)

theorem pyUrlparse_params_no_hash (url dflt : List Char) :
    '#' ∉ (pyUrlparse url dflt).params := by
  intro hc
  exact pyUrlsplit_path_no_hash url dflt (pyUrlparse_params_sub url dflt _ hc)

theorem pyUrlparse_params_no_qm (url dflt : List Char) :
    '?' ∉ (pyUrlparse url dflt).params := by
  intro hc
  exact pyUrlsplit_path_no_qm url dflt (pyUrlparse_params_sub url dflt _ hc)

theorem pyUrlparse_query_no_hash (url dflt : List Char) :
    '#' ∉ (pyUrlparse url dflt).query := by
  rw [pyUrlparse_query_eq]
  exact pyUrlsplit_query_no_hash url dflt

theorem pyUrlparse_netloc_no_hash (url dflt : List Char) :
    '#' ∉ (pyUrlparse url dflt).netloc :=
  no_hash_of_netlocChar (pyUrlparse_netloc_clean url dflt)

theorem pyUrlparse_fragment_nil (url dflt : List Char) (h : '#' ∉ url) :
    (pyUrlparse url dflt).fragment = [] := by
  rw [pyUrlparse_fragment_eq]
  exact pyUrlsplit_fragment_nil url dflt h

theorem pyUrljoin_no_hash (b u : List Char) (hu : '#' ∉ u) (hune : u ≠ []) :
    '#' ∉ pyUrljoin b u := by
  by_cases hb : b = []
  · rw [pyUrljoin, if_pos hb]
    exact hu
  · have hBs : '#' ∉ (pyUrlparse b []).scheme :=
        pyUrlparse_scheme_no_hash b [] (List.not_mem_nil _)
    have hUs : '#' ∉ (pyUrlparse u (pyUrlparse b []).scheme).scheme :=
        pyUrlparse_scheme_no_hash u _ hBs
    have hUf : (pyUrlparse u (pyUrlparse b []).scheme).fragment = [] :=
        pyUrlparse_fragment_nil u _ hu
    rw [pyUrljoin, if_neg hb, if_neg hune]
    simp only
    split
    · exact hu
    · split
      · rw [hUf]
        exact pyUrlunparse_no_hash hUs (pyUrlparse_netloc_no_hash u _)
          (pyUrlparse_path_no_hash u _) (pyUrlparse_params_no_hash u _)
          (pyUrlparse_query_no_hash u _)
      · have hnl : '#' ∉ (if (pyUrlparse u (pyUrlparse b []).scheme).scheme ∈ usesNetloc
            then (pyUrlparse b []).netloc
            else (pyUrlparse u (pyUrlparse b []).scheme).netloc) := by
          split
          · exact pyUrlparse_netloc_no_hash b []
          · exact pyUrlparse_netloc_no_hash u _
        split
        · rw [hUf]
          refine pyUrlunparse_no_hash hUs hnl (pyUrlparse_path_no_hash b [])
            (pyUrlparse_params_no_hash b []) ?_
          split
          · exact pyUrlparse_query_no_hash b []
          · exact pyUrlparse_query_no_hash u _
        · rw [hUf]
          refine pyUrlunparse_no_hash hUs hnl ?_ (pyUrlparse_params_no_hash u _)
            (pyUrlparse_query_no_hash u _)
          intro hc
          rcases mem_resolvedPath hc with h1 | h1 | h1
          · exact pyUrlparse_path_no_hash b [] h1
          · exact pyUrlparse_path_no_hash u _ h1
          · exact absurd h1 (by decide)

theorem afterLastSlash_cons_slash (xs : List Char) :
    afterLastSlash ('/' :: xs) = afterLastSlash xs := by
  rw [afterLastSlash, afterLastSlash, List.reverse_cons, List.takeWhile_append]
  split
  · rename_i hall
    have hfree : '/' ∉ xs := by
      intro hc
      have hmem : '/' ∈ xs.reverse.takeWhile (· != '/') := by
        have hlen := hall
        rw [List.takeWhile_eq_self_iff.mpr ?_]
        · exact List.mem_reverse.mpr hc
        · intro c hcm
          by_contra hcc
          have : (xs.reverse.takeWhile (· != '/')).length < xs.reverse.length := by
            refine lt_of_le_of_ne (List.Sublist.length_le (List.takeWhile_sublist _)) ?_
            intro hlen2
            have := List.takeWhile_eq_self_iff.mp
              ((List.Sublist.eq_of_length (List.takeWhile_sublist _) hlen2))
            exact hcc (this c hcm)
          omega
      have := List.mem_takeWhile_imp hmem
      simp at this
    rw [takeWhile_of_all _ xs.reverse
      (by
        intro c hc
        rw [List.mem_reverse] at hc
        simp only [bne_iff_ne, ne_eq]
        intro hcs
        rw [hcs] at hc
        exact hfree hc)]
    simp [List.takeWhile_cons]
  · rfl

theorem afterLastSlash_append_left (a b : List Char) (hb : '/' ∈ b) :
    afterLastSlash (a ++ b) = afterLastSlash b := by
  rw [afterLastSlash, afterLastSlash, List.reverse_append, List.takeWhile_append]
  split
  · rename_i hall
    exfalso
    have hmem : '/' ∈ b.reverse.takeWhile (· != '/') := by
      rw [List.Sublist.eq_of_length (List.takeWhile_sublist _) hall]
      exact List.mem_reverse.mpr hb
    have := List.mem_takeWhile_imp hmem
    simp at this
  · rfl

theorem splitOnChar_ne_nil (c : Char) (l : List Char) : splitOnChar c l ≠ [] := by
  cases l with
  | nil => simp [splitOnChar]
  | cons x xs =>
    simp only [splitOnChar]
    split
    · simp
    · rcases h : splitOnChar c xs with _ | ⟨h0, t0⟩
      · simp
      · simp

theorem splitOnChar_of_not_mem (c : Char) (l : List Char) (h : c ∉ l) :
    splitOnChar c l = [l] := by
  induction l with
  | nil => rfl
  | cons x xs ih =>
    simp only [splitOnChar]
    have hx : ¬ x = c := by
      intro hx
      exact h (by rw [hx]; exact List.mem_cons_self _ _)
    rw [if_neg hx, ih fun hc => h (List.mem_cons_of_mem x hc)]

theorem splitOnChar_no_sep (c : Char) (l : List Char) :
    ∀ part ∈ splitOnChar c l, c ∉ part := by
  induction l with
  | nil =>
    intro part hp
    rw [List.mem_singleton.mp hp]
    exact List.not_mem_nil c
  | cons x xs ih =>
    intro part hp
    simp only [splitOnChar] at hp
    split at hp
    · rcases List.mem_cons.mp hp with h | h
      · rw [h]; exact List.not_mem_nil c
      · exact ih part h
    · rename_i hx
      rcases hs : splitOnChar c xs with _ | ⟨h0, t0⟩
      · exact absurd hs (splitOnChar_ne_nil c xs)
      · rw [hs] at hp
        rcases List.mem_cons.mp hp with h | h
        · rw [h]
          intro hc
          rcases List.mem_cons.mp hc with h2 | h2
          · exact hx h2.symm
          · refine ih h0 ?_ h2
            rw [hs]
            exact List.mem_cons_self _ _
        · refine ih part ?_
          rw [hs]
          exact List.mem_cons_of_mem h0 h

theorem splitOnChar_length_two (c : Char) (l : List Char) (h : c ∈ l) :
    2 ≤ (splitOnChar c l).length := by
  induction l with
  | nil => exact absurd h (List.not_mem_nil c)
  | cons x xs ih =>
    simp only [splitOnChar]
    by_cases hx : x = c
    · rw [if_pos hx]
      have h1 : (splitOnChar c xs).length ≥ 1 := by
        rcases hs : splitOnChar c xs with _ | ⟨h0, t0⟩
        · exact absurd hs (splitOnChar_ne_nil c xs)
        · simp
      simp only [List.length_cons]
      omega
    · rw [if_neg hx]
      have hmem : c ∈ xs := by
        rcases List.mem_cons.mp h with h1 | h1
        · exact absurd h1.symm hx
        · exact h1
      rcases hs : splitOnChar c xs with _ | ⟨h0, t0⟩
      · exact absurd hs (splitOnChar_ne_nil c xs)
      · have := ih hmem
        rw [hs] at this
        simpa using this

theorem splitOnChar_getLast (l : List Char) :
    (splitOnChar '/' l).getLast? = some (afterLastSlash l) := by
  induction l with
  | nil => simp [splitOnChar, afterLastSlash]
  | cons x xs ih =>
    simp only [splitOnChar]
    by_cases hx : x = '/'
    · rw [if_pos hx]
      rcases hs : splitOnChar '/' xs with _ | ⟨h0, t0⟩
      · exact absurd hs (splitOnChar_ne_nil '/' xs)
      · rw [hs] at ih
        rw [List.getLast?_cons_cons, ih, hx, afterLastSlash_cons_slash]
    · rw [if_neg hx]
      rcases hs : splitOnChar '/' xs with _ | ⟨h0, t0⟩
      · exact absurd hs (splitOnChar_ne_nil '/' xs)
      · rw [hs] at ih
        cases t0 with
        | nil =>
          have hnos : '/' ∉ xs := by
            intro hc
            have h2 := splitOnChar_length_two '/' xs hc
            rw [hs] at h2
            simp at h2
          have hxx : '/' ∉ (x :: xs : List Char) := by
            intro hc
            rcases List.mem_cons.mp hc with h1 | h1
            · exact hx h1.symm
            · exact hnos h1
          have hh0 : h0 = xs := by
            have := ih
            rw [List.getLast?_singleton, afterLastSlash_of_no_slash xs hnos] at this
            exact (Option.some_inj.mp this)
          rw [List.getLast?_singleton, afterLastSlash_of_no_slash _ hxx, hh0]
        | cons t1 ts =>
          have hsl : '/' ∈ xs := by
            by_contra hns
            have := splitOnChar_of_not_mem '/' xs hns
            rw [hs] at this
            simp at this
          rw [List.getLast?_cons_cons]
          rw [List.getLast?_cons_cons] at ih
          rw [ih]
          have : (x :: xs : List Char) = [x] ++ xs := rfl
          rw [this, afterLastSlash_append_left [x] xs hsl]

theorem getLast_append_ne_nil {α : Type} (a b : List α) (hb : b ≠ []) :
    (a ++ b).getLast? = b.getLast? := by
  induction a with
  | nil => rfl
  | cons x xs ih =>
    rw [List.cons_append]
    rcases hxb : xs ++ b with _ | ⟨y, ys⟩
    · exact absurd (List.append_eq_nil.mp hxb).2 hb
    · rw [hxb] at ih
      rw [List.getLast?_cons_cons]
      rw [← hxb] at ih ⊢
      exact ih

theorem filterMiddleAux_getLast (parts : List (List Char)) (h : parts ≠ []) :
    filterMiddleAux parts ≠ [] ∧
    (filterMiddleAux parts).getLast? = parts.getLast? := by
  induction parts with
  | nil => exact absurd rfl h
  | cons b rest ih =>
    cases rest with
    | nil => simp [filterMiddleAux]
    | cons c cs =>
      have hr := ih (by simp)
      simp only [filterMiddleAux]
      split
      · refine ⟨hr.1, ?_⟩
        rw [hr.2, List.getLast?_cons_cons]
      · rcases hfa : filterMiddleAux (c :: cs) with _ | ⟨f0, fs⟩
        · exact absurd hfa hr.1
        · refine ⟨by simp [hfa], ?_⟩
          simp only [hfa, List.getLast?_cons_cons]
          rw [← hfa]
          exact hr.2

theorem filterMiddle_getLast (parts : List (List Char)) (h : parts ≠ []) :
    filterMiddle parts ≠ [] ∧ (filterMiddle parts).getLast? = parts.getLast? := by
  cases parts with
  | nil => exact absurd rfl h
  | cons a rest =>
    cases rest with
    | nil => simp [filterMiddle]
    | cons b bs =>
      have hr := filterMiddleAux_getLast (b :: bs) (by simp)
      simp only [filterMiddle]
      rcases hfa : filterMiddleAux (b :: bs) with _ | ⟨f0, fs⟩
      · exact absurd hfa hr.1
      · refine ⟨by simp [hfa], ?_⟩
        simp only [hfa, List.getLast?_cons_cons]
        rw [← hfa]
        exact hr.2

theorem afterLastSlash_joinSlash (L : List (List Char)) (hL : L ≠ [])
    (hfree : ∀ part ∈ L, '/' ∉ part) :
    some (afterLastSlash (joinSlash L)) = L.getLast? := by
  induction L with
  | nil => exact absurd rfl hL
  | cons p rest ih =>
    cases rest with
    | nil =>
      simp only [joinSlash, List.getLast?_singleton]
      rw [afterLastSlash_of_no_slash p (hfree p (List.mem_cons_self _ _))]
    | cons q qs =>
      have hih := ih (by simp) fun part hp => hfree part (List.mem_cons_of_mem p hp)
      simp only [joinSlash] at hih ⊢
      rw [List.getLast?_cons_cons]
      have hs : '/' ∈ ('/' :: joinSlash (q :: qs) : List Char) := List.mem_cons_self _ _
      rw [afterLastSlash_append_left p _ hs, afterLastSlash_cons_slash]
      exact hih

theorem resolveFold_getLast (segs : List (List Char)) (z : List Char)
    (hz : segs.getLast? = some z) (hz1 : z ≠ ['.']) (hz2 : z ≠ ['.', '.']) :
    (segs.foldl
      (fun acc seg =>
        if seg = ['.', '.'] then acc.dropLast
        else if seg = ['.'] then acc
        else acc ++ [seg]) []).getLast? = some z := by
  obtain ⟨init, rfl⟩ := List.getLast?_eq_some_iff.mp hz
  rw [List.foldl_append]
  simp only [List.foldl_cons, List.foldl_nil]
  rw [if_neg hz2, if_neg hz1]
  rw [getLast_append_ne_nil _ [z] (by simp), List.getLast?_singleton]

theorem joinSegments_parts_free (Bpath Upath : List Char) :
    ∀ part ∈ joinSegments Bpath Upath, '/' ∉ part := by
  intro part hp
  simp only [joinSegments] at hp
  split at hp
  · exact splitOnChar_no_sep '/' Upath part hp
  · rcases List.mem_append.mp (mem_filterMiddle_sub hp) with h | h
    · split at h
      · exact splitOnChar_no_sep '/' Bpath part (List.Sublist.mem h (List.dropLast_sublist _))
      · exact splitOnChar_no_sep '/' Bpath part h
    · exact splitOnChar_no_sep '/' Upath part h

theorem joinSegments_ne_nil (Bpath Upath : List Char) : joinSegments Bpath Upath ≠ [] := by
  simp only [joinSegments]
  split
  · exact splitOnChar_ne_nil '/' Upath
  · refine (filterMiddle_getLast _ ?_).1
    intro hc
    rcases List.append_eq_nil.mp hc with ⟨_, h2⟩
    exact splitOnChar_ne_nil '/' Upath h2

theorem joinSegments_getLast (Bpath Upath : List Char) :
    (joinSegments Bpath Upath).getLast? = some (afterLastSlash Upath) := by
  simp only [joinSegments]
  split
  · exact splitOnChar_getLast Upath
  · have hne : (if (splitOnChar '/' Bpath).getLast? ≠ some [] then
        (splitOnChar '/' Bpath).dropLast else splitOnChar '/' Bpath) ++
        splitOnChar '/' Upath ≠ [] := by
      intro hc
      rcases List.append_eq_nil.mp hc with ⟨_, h2⟩
      exact splitOnChar_ne_nil '/' Upath h2
    rw [(filterMiddle_getLast _ hne).2,
      getLast_append_ne_nil _ _ (splitOnChar_ne_nil '/' Upath), splitOnChar_getLast]

theorem resolveSegs_parts_free (segs : List (List Char))
    (h : ∀ part ∈ segs, '/' ∉ part) :
    ∀ part ∈ resolveSegs segs, '/' ∉ part := by
  intro part hp
  rcases mem_resolveSegs_sub hp with h1 | h1
  · exact h part h1
  · rw [h1]
    exact List.not_mem_nil '/'

theorem resolvedPath_semi (Bpath Upath : List Char) (hU : ';' ∉ afterLastSlash Upath) :
    ';' ∉ afterLastSlash (resolvedPath Bpath Upath) := by
  have hfree := joinSegments_parts_free Bpath Upath
  have hlast := joinSegments_getLast Bpath Upath
  have hslash : afterLastSlash ['/'] = ([] : List Char) := by decide
  simp only [resolvedPath, resolveSegs]
  set segs := joinSegments Bpath Upath with hsegs
  set r := segs.foldl
    (fun acc seg =>
      if seg = ['.', '.'] then acc.dropLast
      else if seg = ['.'] then acc
      else acc ++ [seg]) [] with hr
  have hrfree : ∀ part ∈ r, '/' ∉ part := by
    intro part hp
    rcases mem_resolveFold_sub (hr ▸ hp) with h1 | h1
    · exact absurd h1 (List.not_mem_nil _)
    · exact hfree part h1
  by_cases hdots : segs.getLast? = some ['.'] ∨ segs.getLast? = some ['.', '.']
  · rw [if_pos hdots]
    by_cases hrp : joinSlash (r ++ [[]]) = []
    · rw [if_pos hrp, hslash]
      exact List.not_mem_nil ';'
    · rw [if_neg hrp]
      have hfree2 : ∀ part ∈ r ++ [[]], '/' ∉ part := by
        intro part hp
        rcases List.mem_append.mp hp with h1 | h1
        · exact hrfree part h1
        · rw [List.mem_singleton.mp h1]
          exact List.not_mem_nil '/'
      have hjoin := afterLastSlash_joinSlash (r ++ [[]]) (by simp) hfree2
      rw [getLast_append_ne_nil _ [[]] (by simp), List.getLast?_singleton] at hjoin
      rw [Option.some_inj.mp hjoin]
      exact List.not_mem_nil ';'
  · rw [if_neg hdots]
    rcases hz : segs.getLast? with _ | z
    · rw [hlast] at hz
      exact absurd hz (by simp)
    · have hz1 : z ≠ ['.'] := by
        intro hc
        rw [hc] at hz
        exact hdots (Or.inl hz)
      have hz2 : z ≠ ['.', '.'] := by
        intro hc
        rw [hc] at hz
        exact hdots (Or.inr hz)
      have hfold := resolveFold_getLast segs z hz hz1 hz2
      by_cases hrp : joinSlash r = []
      · rw [if_pos hrp, hslash]
        exact List.not_mem_nil ';'
      · rw [if_neg hrp]
        have hrne : r ≠ [] := by
          intro hc
          rw [hc] at hrp
          exact hrp rfl
        have hjoin := afterLastSlash_joinSlash r hrne hrfree
        rw [← hr] at hfold
        rw [hfold] at hjoin
        rw [Option.some_inj.mp hjoin]
        have hzu : z = afterLastSlash Upath := by
          rw [hlast] at hz
          exact (Option.some_inj.mp hz).symm
        rw [hzu]
        exact hU

theorem prepPath_head (pp : List Char) : prepPath pp = [] ∨ (prepPath pp).take 1 = ['/'] := by
  rw [prepPath]
  split
  · exact Or.inr rfl
  · rename_i hcond
    rw [not_and_or] at hcond
    rcases hcond with h | h
    · simp only [ne_eq, not_not] at h
      exact Or.inl h
    · simp only [ne_eq, not_not] at h
      exact Or.inr h

theorem prepPath_idem (pp : List Char) : prepPath (prepPath pp) = prepPath pp := by
  rcases prepPath_head pp with h | h
  · rw [h]
    rfl
  · rw [prepPath, if_neg]
    rw [not_and_or]
    right
    simp [h]

theorem afterLastSlash_prepPath (p : List Char) :
    afterLastSlash (prepPath p) = afterLastSlash p := by
  rw [prepPath]
  split
  · exact afterLastSlash_cons_slash p
  · rfl

theorem recomb_splitParams_prep (p pr : List Char) (hsp : ';' ∉ afterLastSlash p)
    (hpr : '/' ∉ pr) :
    recombParams (splitParams (prepPath (recombParams p pr))).1
      (splitParams (prepPath (recombParams p pr))).2 = prepPath (recombParams p pr) := by
  by_cases hprn : pr = []
  · subst hprn
    have hrec : recombParams p [] = p := by rw [recombParams]; simp
    rw [hrec]
    have hsp2 : ';' ∉ afterLastSlash (prepPath p) := by
      rw [afterLastSlash_prepPath]
      exact hsp
    rw [splitParams_id (prepPath p) hsp2]
    rw [recombParams]
    simp
  · have hrec : recombParams p pr = p ++ ';' :: pr := by rw [recombParams, if_pos hprn]
    rw [hrec]
    by_cases hpp : (p ++ ';' :: pr : List Char).take 1 = ['/']
    · have hprep : prepPath (p ++ ';' :: pr) = p ++ ';' :: pr := by
        rw [prepPath, if_neg]
        rw [not_and_or]
        right
        simp [hpp]
      rw [hprep, splitParams_recomb p pr hsp hpr, recombParams, if_pos hprn]
    · have hne : (p ++ ';' :: pr : List Char) ≠ [] := by simp
      have hprep : prepPath (p ++ ';' :: pr) = ('/' :: p) ++ ';' :: pr := by
        rw [prepPath, if_pos ⟨hne, hpp⟩]
        rfl
      have hsp2 : ';' ∉ afterLastSlash ('/' :: p) := by
        rw [afterLastSlash_cons_slash]
        exact hsp
      rw [hprep, splitParams_recomb ('/' :: p) pr hsp2 hpr, recombParams, if_pos hprn]

theorem pyUrlunsplit_shape (s nl pp q : List Char) (hs : s ≠ []) (hnl : nl ≠ []) :
    pyUrlunsplit s nl pp q [] =
      s ++ ':' :: '/' :: '/' :: (nl ++ (prepPath pp ++ qpart q)) := by
  simp only [pyUrlunsplit, prepPath, qpart]
  rw [if_pos (Or.inl hnl), if_neg (by simp : ¬ ([] : List Char) ≠ [])]
  by_cases hq : q = []
  · subst hq
    rw [if_neg (by simp : ¬ ([] : List Char) ≠ []), if_pos hs]
    simp [List.append_assoc]
  · rw [if_pos hq, if_pos hs]
    simp [List.append_assoc, hq]

theorem pyUrlunparse_shape (s nl p pr q : List Char) (hs : s ≠ []) (hnl : nl ≠ []) :
    pyUrlunparse s nl p pr q [] =
      s ++ ':' :: '/' :: '/' :: (nl ++ (prepPath (recombParams p pr) ++ qpart q)) := by
  rw [pyUrlunparse]
  have hrw : (if pr ≠ [] then p ++ ';' :: pr else p) = recombParams p pr := rfl
  rw [hrw]
  exact pyUrlunsplit_shape s nl (recombParams p pr) q hs hnl

theorem schemeSplit_explicit (s X d : List Char) (h1 : ∀ c ∈ s, (c != ':') = true)
    (h2 : schemeOk s = true)
    (h3 : pyLower s = s) :
    schemeSplit (s ++ ':' :: X) d = (s, X) := by
  have hpre : (s ++ ':' :: X).takeWhile (· != ':') = s := by
    rw [takeWhile_all_append _ _ _ h1]
    simp [List.takeWhile_cons]
  have hdrop : ((s ++ ':' :: X).dropWhile (· != ':')).drop 1 = X := by
    rw [dropWhile_all_append _ _ _ h1]
    simp [List.dropWhile_cons]
  have hlen : s.length < (s ++ ':' :: X).length := by
    rw [List.length_append]
    simp
  simp only [schemeSplit, hpre, hdrop]
  rw [if_pos (by rw [Bool.and_eq_true]; exact ⟨decide_eq_true hlen, h2⟩), h3]

theorem netlocSplit_explicit (nl rest : List Char)
    (hnl : ∀ c ∈ nl, netlocChar c = true)
    (hrest : ∀ c t, rest = c :: t → netlocChar c = false) :
    netlocSplit ('/' :: '/' :: (nl ++ rest)) = (nl, rest) := by
  simp only [netlocSplit]
  rw [if_pos (show List.take 2 ('/' :: '/' :: (nl ++ rest)) = ['/', '/'] from rfl)]
  have hdrop2 : (('/' :: '/' :: (nl ++ rest) : List Char)).drop 2 = nl ++ rest := rfl
  rw [hdrop2, takeWhile_all_append _ _ _ hnl, dropWhile_all_append _ _ _ hnl]
  rcases hr : rest with _ | ⟨c, t⟩
  · simp
  · rw [List.takeWhile_cons, List.dropWhile_cons, hrest c t hr]
    simp

theorem urlunparse_roundtrip (s nl p pr q d : List Char)
    (hs : s = 'h' :: 't' :: 't' :: 'p' :: [] ∨ s = 'h' :: 't' :: 't' :: 'p' :: 's' :: [])
    (hnl : nl ≠ []) (hnlc : ∀ c ∈ nl, netlocChar c = true)
    (hpqm : '?' ∉ p) (hphash : '#' ∉ p)
    (hprsl : '/' ∉ pr) (hprqm : '?' ∉ pr) (hprhash : '#' ∉ pr)
    (hqhash : '#' ∉ q) (hsp : ';' ∉ afterLastSlash p)
    (hnlD : ∀ c ∈ nl, droppedUrlChar c = false)
    (hpD : ∀ c ∈ p, droppedUrlChar c = false)
    (hprD : ∀ c ∈ pr, droppedUrlChar c = false)
    (hqD : ∀ c ∈ q, droppedUrlChar c = false) :
    (pyUrlparse (pyUrlunparse s nl p pr q []) d).scheme = s ∧
    (pyUrlparse (pyUrlunparse s nl p pr q []) d).netloc = nl ∧
    pyUrlunparse s nl (pyUrlparse (pyUrlunparse s nl p pr q []) d).path
      (pyUrlparse (pyUrlunparse s nl p pr q []) d).params
      (pyUrlparse (pyUrlunparse s nl p pr q []) d).query
      (pyUrlparse (pyUrlunparse s nl p pr q []) d).fragment =
      pyUrlunparse s nl p pr q [] := by
  have hsne : s ≠ [] := by rcases hs with rfl | rfl <;> simp
  have hshape := pyUrlunparse_shape s nl p pr q hsne hnl
  have hmem_pp2 : ∀ c ∈ prepPath (recombParams p pr), c ∈ p ∨ c ∈ pr ∨ c = ';' ∨ c = '/' := by
    intro c hc
    have hrec : ∀ e ∈ recombParams p pr, e ∈ p ∨ e ∈ pr ∨ e = ';' := by
      intro e he
      rw [recombParams] at he
      split at he
      · rcases List.mem_append.mp he with h1 | h1
        · exact Or.inl h1
        · rcases List.mem_cons.mp h1 with h2 | h2
          · exact Or.inr (Or.inr h2)
          · exact Or.inr (Or.inl h2)
      · exact Or.inl he
    rw [prepPath] at hc
    split at hc
    · rcases List.mem_cons.mp hc with h1 | h1
      · exact Or.inr (Or.inr (Or.inr h1))
      · rcases hrec c h1 with h | h | h
        · exact Or.inl h
        · exact Or.inr (Or.inl h)
        · exact Or.inr (Or.inr (Or.inl h))
    · rcases hrec c hc with h | h | h
      · exact Or.inl h
      · exact Or.inr (Or.inl h)
      · exact Or.inr (Or.inr (Or.inl h))
  have hpp2_qm : '?' ∉ prepPath (recombParams p pr) := by
    intro hc
    rcases hmem_pp2 _ hc with h | h | h | h
    · exact hpqm h
    · exact hprqm h
    · exact absurd h (by decide)
    · exact absurd h (by decide)
  have hpp2_hash : '#' ∉ prepPath (recombParams p pr) := by
    intro hc
    rcases hmem_pp2 _ hc with h | h | h | h
    · exact hphash h
    · exact hprhash h
    · exact absurd h (by decide)
    · exact absurd h (by decide)
  have hqpart_mem : ∀ c ∈ qpart q, c = '?' ∨ c ∈ q := by
    intro c hc
    rw [qpart] at hc
    split at hc
    · rcases List.mem_cons.mp hc with h1 | h1
      · exact Or.inl h1
      · exact Or.inr h1
    · exact absurd hc (List.not_mem_nil _)
  have hrest_hash : ∀ c ∈ prepPath (recombParams p pr) ++ qpart q, (c != '#') = true := by
    intro c hc
    simp only [bne_iff_ne, ne_eq]
    intro hcs
    subst hcs
    rcases List.mem_append.mp hc with h1 | h1
    · exact hpp2_hash h1
    · rcases hqpart_mem _ h1 with h2 | h2
      · exact absurd h2 (by decide)
      · exact hqhash h2
  have hpp2_qm_all : ∀ c ∈ prepPath (recombParams p pr), (c != '?') = true := by
    intro c hc
    simp only [bne_iff_ne, ne_eq]
    intro hcs
    subst hcs
    exact hpp2_qm hc
  have hcleann : cleanUrl (pyUrlunparse s nl p pr q []) = pyUrlunparse s nl p pr q [] := by
    refine cleanUrl_eq_self _ ?_ ?_
    · intro c t hct
      rw [hshape] at hct
      rcases hs with rfl | rfl <;>
        (rw [List.cons_append, List.cons.injEq] at hct; rw [← hct.1]; decide)
    · intro c hc
      rcases mem_pyUrlunparse hc with h | h | h | h | h | h | h | h | h | h | h
      · have hsD : ∀ e ∈ s, droppedUrlChar e = false := by
          rcases hs with rfl | rfl <;> decide
        exact hsD c h
      · exact hnlD c h
      · exact hpD c h
      · exact hprD c h
      · exact hqD c h
      · exact absurd h (List.not_mem_nil _)
      all_goals (rw [h]; decide)
  have hss1 : (schemeSplit (pyUrlunparse s nl p pr q []) (cleanScheme d)).1 = s := by
    rw [hshape, schemeSplit_explicit s _ (cleanScheme d)
      (by rcases hs with rfl | rfl <;> decide)
      (by rcases hs with rfl | rfl <;> decide) (by rcases hs with rfl | rfl <;> decide)]
  have hss2 : (schemeSplit (pyUrlunparse s nl p pr q []) (cleanScheme d)).2 =
      '/' :: '/' :: (nl ++ (prepPath (recombParams p pr) ++ qpart q)) := by
    rw [hshape, schemeSplit_explicit s _ (cleanScheme d)
      (by rcases hs with rfl | rfl <;> decide)
      (by rcases hs with rfl | rfl <;> decide) (by rcases hs with rfl | rfl <;> decide)]
  have hrest_head : ∀ c t, prepPath (recombParams p pr) ++ qpart q = c :: t →
      netlocChar c = false := by
    intro c t hct
    rcases hpp : prepPath (recombParams p pr) with _ | ⟨c0, t0⟩
    · rw [hpp, List.nil_append] at hct
      rw [qpart] at hct
      split at hct
      · rw [List.cons.injEq] at hct
        rw [← hct.1]
        decide
      · exact absurd hct (by simp)
    · rw [hpp] at hct
      rw [List.cons_append, List.cons.injEq] at hct
      have hc0 : c0 = '/' := by
        rcases prepPath_head (recombParams p pr) with h | h
        · rw [hpp] at h
          exact absurd h (by simp)
        · rw [hpp] at h
          simpa using h
      rw [← hct.1, hc0]
      decide
  have hns := netlocSplit_explicit nl (prepPath (recombParams p pr) ++ qpart q) hnlc hrest_head
  have hns1 : (netlocSplit ('/' :: '/' ::
      (nl ++ (prepPath (recombParams p pr) ++ qpart q)))).1 = nl := by rw [hns]
  have hns2 : (netlocSplit ('/' :: '/' ::
      (nl ++ (prepPath (recombParams p pr) ++ qpart q)))).2 =
      prepPath (recombParams p pr) ++ qpart q := by rw [hns]
  have hpath0 : (prepPath (recombParams p pr) ++ qpart q).takeWhile (· != '#') =
      prepPath (recombParams p pr) ++ qpart q := takeWhile_of_all _ _ hrest_hash
  have hfrag : ((prepPath (recombParams p pr) ++ qpart q).dropWhile (· != '#')).drop 1 =
      ([] : List Char) := by
    rw [dropWhile_of_all _ _ hrest_hash]
    rfl
  have hpath : (prepPath (recombParams p pr) ++ qpart q).takeWhile (· != '?') =
      prepPath (recombParams p pr) := by
    rw [takeWhile_all_append _ _ _ hpp2_qm_all]
    rw [qpart]
    split
    · rw [List.takeWhile_cons]
      simp
    · simp
  have hquery : ((prepPath (recombParams p pr) ++ qpart q).dropWhile (· != '?')).drop 1 =
      q := by
    rw [dropWhile_all_append _ _ _ hpp2_qm_all]
    rw [qpart]
    split
    · rw [List.dropWhile_cons]
      simp
    · rename_i hq
      simp only [ne_eq, not_not] at hq
      rw [hq]
      rfl
  have hsplit : pyUrlsplit (pyUrlunparse s nl p pr q []) d =
      ⟨s, nl, prepPath (recombParams p pr), q, []⟩ := by
    simp only [pyUrlsplit]
    rw [hcleann]
    rw [hss2, hns1, hns2, hpath0, hpath, hquery]
    rw [hss1]
    rw [dropWhile_of_all _ _ hrest_hash]
    rfl
  have hunsplit_pp2 : pyUrlunsplit s nl (prepPath (recombParams p pr)) q [] =
      pyUrlunparse s nl p pr q [] := by
    rw [pyUrlunsplit_shape s nl (prepPath (recombParams p pr)) q hsne hnl, prepPath_idem,
      hshape]
  by_cases hguard : s ∈ usesParams ∧ ';' ∈ prepPath (recombParams p pr)
  · have hparse : pyUrlparse (pyUrlunparse s nl p pr q []) d =
        ⟨s, nl, (splitParams (prepPath (recombParams p pr))).1,
          (splitParams (prepPath (recombParams p pr))).2, q, []⟩ := by
      simp only [pyUrlparse, hsplit]
      rw [if_pos hguard]
    refine ⟨by rw [hparse], by rw [hparse], ?_⟩
    rw [hparse]
    show pyUrlunparse s nl (splitParams (prepPath (recombParams p pr))).1
      (splitParams (prepPath (recombParams p pr))).2 q [] = pyUrlunparse s nl p pr q []
    rw [pyUrlunparse]
    have hrw : (if (splitParams (prepPath (recombParams p pr))).2 ≠ [] then
        (splitParams (prepPath (recombParams p pr))).1 ++ ';' ::
          (splitParams (prepPath (recombParams p pr))).2
        else (splitParams (prepPath (recombParams p pr))).1) =
        recombParams (splitParams (prepPath (recombParams p pr))).1
          (splitParams (prepPath (recombParams p pr))).2 := rfl
    rw [hrw, recomb_splitParams_prep p pr hsp hprsl]
    exact hunsplit_pp2
  · have hparse : pyUrlparse (pyUrlunparse s nl p pr q []) d =
        ⟨s, nl, prepPath (recombParams p pr), [], q, []⟩ := by
      simp only [pyUrlparse, hsplit]
      rw [if_neg hguard]
    refine ⟨by rw [hparse], by rw [hparse], ?_⟩
    rw [hparse]
    show pyUrlunparse s nl (prepPath (recombParams p pr)) [] q [] =
      pyUrlunparse s nl p pr q []
    rw [pyUrlunparse]
    have hrw : (if ([] : List Char) ≠ [] then
        prepPath (recombParams p pr) ++ ';' :: [] else prepPath (recombParams p pr)) =
        prepPath (recombParams p pr) := by simp
    rw [hrw]
    exact hunsplit_pp2

theorem schemeSplit_dflt_indep (url d1 d2 : List Char)
    (h : (schemeSplit url d1).1 ≠ d1) :
    schemeSplit url d1 = schemeSplit url d2 := by
  by_cases hc : (decide ((url.takeWhile (· != ':')).length < url.length) &&
      schemeOk (url.takeWhile (· != ':'))) = true
  · simp only [schemeSplit]
    rw [if_pos hc, if_pos hc]
  · exfalso
    apply h
    simp only [schemeSplit]
    rw [if_neg hc]

theorem pyUrlparse_dflt_indep (url d1 d2 : List Char)
    (h : (pyUrlparse url d1).scheme ≠ cleanScheme d1) :
    pyUrlparse url d1 = pyUrlparse url d2 := by
  have hsch : (schemeSplit (cleanUrl url) (cleanScheme d1)).1 ≠ cleanScheme d1 := by
    rw [pyUrlparse_scheme_eq] at h
    exact h
  have hss : schemeSplit (cleanUrl url) (cleanScheme d1) =
      schemeSplit (cleanUrl url) (cleanScheme d2) :=
    schemeSplit_dflt_indep (cleanUrl url) (cleanScheme d1) (cleanScheme d2) hsch
  simp only [pyUrlparse, pyUrlsplit, hss]

theorem pyUrljoin_self (b : List Char)
    (hbs : (pyUrlparse b []).scheme = 'h' :: 't' :: 't' :: 'p' :: [] ∨
      (pyUrlparse b []).scheme = 'h' :: 't' :: 't' :: 'p' :: 's' :: [])
    (hbn : (pyUrlparse b []).netloc ≠ [])
    (hcanon : pyUrlunparse (pyUrlparse b []).scheme (pyUrlparse b []).netloc
      (pyUrlparse b []).path (pyUrlparse b []).params (pyUrlparse b []).query
      (pyUrlparse b []).fragment = b) :
    pyUrljoin b b = b := by
  have hbne : b ≠ [] := by
    intro h
    rw [h] at hbn
    exact hbn (by decide)
  have hUB : pyUrlparse b (pyUrlparse b []).scheme = pyUrlparse b [] := by
    refine (pyUrlparse_dflt_indep b [] _ ?_).symm
    rcases hbs with h | h <;> rw [h] <;> decide
  have hcond1 : ¬((pyUrlparse b (pyUrlparse b []).scheme).scheme ≠ (pyUrlparse b []).scheme ∨
      (pyUrlparse b (pyUrlparse b []).scheme).scheme ∉ usesRelative) := by
    rw [hUB]
    intro hcon
    rcases hcon with h | h
    · exact h rfl
    · rcases hbs with h2 | h2 <;> rw [h2] at h <;> exact h (by decide)
  have hcond2 : (pyUrlparse b (pyUrlparse b []).scheme).scheme ∈ usesNetloc ∧
      (pyUrlparse b (pyUrlparse b []).scheme).netloc ≠ [] := by
    rw [hUB]
    exact ⟨by rcases hbs with h | h <;> rw [h] <;> decide, hbn⟩
  rw [pyUrljoin, if_neg hbne, if_neg hbne]
  simp only
  rw [if_neg hcond1, if_pos hcond2, hUB]
  exact hcanon

theorem pyUrljoin_unparse_self (b s nl p pr q : List Char)
    (hb : b ≠ [])
    (hbsch : (pyUrlparse b []).scheme = s)
    (hs : s = 'h' :: 't' :: 't' :: 'p' :: [] ∨ s = 'h' :: 't' :: 't' :: 'p' :: 's' :: [])
    (hnl : nl ≠ []) (hnlc : ∀ c ∈ nl, netlocChar c = true)
    (hpqm : '?' ∉ p) (hphash : '#' ∉ p)
    (hprsl : '/' ∉ pr) (hprqm : '?' ∉ pr) (hprhash : '#' ∉ pr)
    (hqhash : '#' ∉ q) (hsp : ';' ∉ afterLastSlash p)
    (hnlD : ∀ c ∈ nl, droppedUrlChar c = false)
    (hpD : ∀ c ∈ p, droppedUrlChar c = false)
    (hprD : ∀ c ∈ pr, droppedUrlChar c = false)
    (hqD : ∀ c ∈ q, droppedUrlChar c = false) :
    pyUrljoin b (pyUrlunparse s nl p pr q []) = pyUrlunparse s nl p pr q [] := by
  have hsne : s ≠ [] := by rcases hs with rfl | rfl <;> simp
  have hnne : pyUrlunparse s nl p pr q [] ≠ [] := by
    rw [pyUrlunparse_shape s nl p pr q hsne hnl]
    rcases hs with rfl | rfl <;> simp
  obtain ⟨h1, h2, h3⟩ := urlunparse_roundtrip s nl p pr q (pyUrlparse b []).scheme hs hnl
    hnlc hpqm hphash hprsl hprqm hprhash hqhash hsp hnlD hpD hprD hqD
  have hcond1 : ¬((pyUrlparse (pyUrlunparse s nl p pr q []) (pyUrlparse b []).scheme).scheme ≠
        (pyUrlparse b []).scheme ∨
      (pyUrlparse (pyUrlunparse s nl p pr q []) (pyUrlparse b []).scheme).scheme ∉
        usesRelative) := by
    intro hcon
    rcases hcon with h | h
    · exact h (by rw [h1, hbsch])
    · rw [h1] at h
      rcases hs with rfl | rfl <;> exact h (by decide)
  have hcond2 : (pyUrlparse (pyUrlunparse s nl p pr q []) (pyUrlparse b []).scheme).scheme ∈
        usesNetloc ∧
      (pyUrlparse (pyUrlunparse s nl p pr q []) (pyUrlparse b []).scheme).netloc ≠ [] := by
    refine ⟨?_, ?_⟩
    · rw [h1]
      rcases hs with rfl | rfl <;> decide
    · rw [h2]
      exact hnl
  rw [pyUrljoin, if_neg hb, if_neg hnne]
  simp only
  rw [if_neg hcond1, if_pos hcond2, h1, h2]
  exact h3

theorem pyUrljoin_strip_props (b u : List Char)
    (hbs : (pyUrlparse b []).scheme = 'h' :: 't' :: 't' :: 'p' :: [] ∨
      (pyUrlparse b []).scheme = 'h' :: 't' :: 't' :: 'p' :: 's' :: [])
    (hbn : (pyUrlparse b []).netloc ≠ [])
    (hbh : '#' ∉ b)
    (hcanon : pyUrlunparse (pyUrlparse b []).scheme (pyUrlparse b []).netloc
      (pyUrlparse b []).path (pyUrlparse b []).params (pyUrlparse b []).query
      (pyUrlparse b []).fragment = b)
    (huh : '#' ∉ u) :
    '#' ∉ pyUrljoin b u ∧ pyUrljoin b (pyUrljoin b u) = pyUrljoin b u := by
  have hbne : b ≠ [] := by
    intro h
    rw [h] at hbn
    exact hbn (by decide)
  by_cases hu : u = []
  · subst hu
    have hn : pyUrljoin b [] = b := by
      rw [pyUrljoin, if_neg hbne, if_pos rfl]
    rw [hn]
    exact ⟨hbh, pyUrljoin_self b hbs hbn hcanon⟩
  · refine ⟨pyUrljoin_no_hash b u huh hu, ?_⟩
    by_cases hrel0 : (pyUrlparse u (pyUrlparse b []).scheme).scheme ≠ (pyUrlparse b []).scheme ∨
        (pyUrlparse u (pyUrlparse b []).scheme).scheme ∉ usesRelative
    · have hn : pyUrljoin b u = u := by
        rw [pyUrljoin, if_neg hbne, if_neg hu]
        simp only
        rw [if_pos hrel0]
      rw [hn]
      exact hn
    · have hrel := hrel0
      push_neg at hrel
      obtain ⟨hUsch, hUrel⟩ := hrel
      have hUs_conc : (pyUrlparse u (pyUrlparse b []).scheme).scheme =
            'h' :: 't' :: 't' :: 'p' :: [] ∨
          (pyUrlparse u (pyUrlparse b []).scheme).scheme =
            'h' :: 't' :: 't' :: 'p' :: 's' :: [] := by
        rw [hUsch]
        exact hbs
      have hUfrag : (pyUrlparse u (pyUrlparse b []).scheme).fragment = [] :=
        pyUrlparse_fragment_nil u _ huh
      have hUuses : (pyUrlparse u (pyUrlparse b []).scheme).scheme ∈ usesParams := by
        rcases hUs_conc with h | h <;> rw [h] <;> decide
      have hBuses : (pyUrlparse b []).scheme ∈ usesParams := by
        rcases hbs with h | h <;> rw [h] <;> decide
      by_cases hnet : (pyUrlparse u (pyUrlparse b []).scheme).scheme ∈ usesNetloc ∧
          (pyUrlparse u (pyUrlparse b []).scheme).netloc ≠ []
      · have hn : pyUrljoin b u = pyUrlunparse
            (pyUrlparse u (pyUrlparse b []).scheme).scheme
            (pyUrlparse u (pyUrlparse b []).scheme).netloc
            (pyUrlparse u (pyUrlparse b []).scheme).path
            (pyUrlparse u (pyUrlparse b []).scheme).params
            (pyUrlparse u (pyUrlparse b []).scheme).query [] := by
          rw [pyUrljoin, if_neg hbne, if_neg hu]
          simp only
          rw [if_neg hrel0, if_pos hnet, hUfrag]
        rw [hn]
        exact pyUrljoin_unparse_self b _ _ _ _ _ hbne hUsch.symm hUs_conc hnet.2
          (pyUrlparse_netloc_clean u _) (pyUrlparse_path_no_qm u _)
          (pyUrlparse_path_no_hash u _) (pyUrlparse_params_no_slash u _)
          (pyUrlparse_params_no_qm u _) (pyUrlparse_params_no_hash u _)
          (pyUrlparse_query_no_hash u _) (pyUrlparse_path_semi u _ hUuses)
          (pyUrlparse_netloc_no_dropped u _) (pyUrlparse_path_no_dropped u _)
          (pyUrlparse_params_no_dropped u _) (pyUrlparse_query_no_dropped u _)
      · have hUnet : (pyUrlparse u (pyUrlparse b []).scheme).scheme ∈ usesNetloc := by
          rcases hUs_conc with h | h <;> rw [h] <;> decide
        by_cases hpp : (pyUrlparse u (pyUrlparse b []).scheme).path = [] ∧
            (pyUrlparse u (pyUrlparse b []).scheme).params = []
        · have hn : pyUrljoin b u = pyUrlunparse
              (pyUrlparse u (pyUrlparse b []).scheme).scheme
              (pyUrlparse b []).netloc (pyUrlparse b []).path (pyUrlparse b []).params
              (if (pyUrlparse u (pyUrlparse b []).scheme).query = []
                then (pyUrlparse b []).query
                else (pyUrlparse u (pyUrlparse b []).scheme).query) [] := by
            rw [pyUrljoin, if_neg hbne, if_neg hu]
            simp only
            rw [if_neg hrel0, if_neg hnet, if_pos hUnet, if_pos hpp, hUfrag]
          rw [hn]
          refine pyUrljoin_unparse_self b _ _ _ _ _ hbne hUsch.symm hUs_conc hbn
            (pyUrlparse_netloc_clean b []) (pyUrlparse_path_no_qm b [])
            (pyUrlparse_path_no_hash b []) (pyUrlparse_params_no_slash b [])
            (pyUrlparse_params_no_qm b []) (pyUrlparse_params_no_hash b []) ?_
            (pyUrlparse_path_semi b [] hBuses)
            (pyUrlparse_netloc_no_dropped b []) (pyUrlparse_path_no_dropped b [])
            (pyUrlparse_params_no_dropped b []) ?_
          · split
            · exact pyUrlparse_query_no_hash b []
            · exact pyUrlparse_query_no_hash u _
          · split
            · exact pyUrlparse_query_no_dropped b []
            · exact pyUrlparse_query_no_dropped u _
        · have hn : pyUrljoin b u = pyUrlunparse
              (pyUrlparse u (pyUrlparse b []).scheme).scheme
              (pyUrlparse b []).netloc
              (resolvedPath (pyUrlparse b []).path
                (pyUrlparse u (pyUrlparse b []).scheme).path)
              (pyUrlparse u (pyUrlparse b []).scheme).params
              (pyUrlparse u (pyUrlparse b []).scheme).query [] := by
            rw [pyUrljoin, if_neg hbne, if_neg hu]
            simp only
            rw [if_neg hrel0, if_neg hnet, if_pos hUnet, if_neg hpp, hUfrag]
          rw [hn]
          refine pyUrljoin_unparse_self b _ _ _ _ _ hbne hUsch.symm hUs_conc hbn
            (pyUrlparse_netloc_clean b []) ?_ ?_ (pyUrlparse_params_no_slash u _)
            (pyUrlparse_params_no_qm u _) (pyUrlparse_params_no_hash u _)
            (pyUrlparse_query_no_hash u _) ?_
            (pyUrlparse_netloc_no_dropped b []) ?_
            (pyUrlparse_params_no_dropped u _) (pyUrlparse_query_no_dropped u _)
          · intro hc
            rcases mem_resolvedPath hc with h1 | h1 | h1
            · exact pyUrlparse_path_no_qm b [] h1
            · exact pyUrlparse_path_no_qm u _ h1
            · exact absurd h1 (by decide)
          · intro hc
            rcases mem_resolvedPath hc with h1 | h1 | h1
            · exact pyUrlparse_path_no_hash b [] h1
            · exact pyUrlparse_path_no_hash u _ h1
            · exact absurd h1 (by decide)
          · exact resolvedPath_semi _ _ (pyUrlparse_path_semi u _ hUuses)
          · intro c hc
            rcases mem_resolvedPath hc with h1 | h1 | h1
            · exact pyUrlparse_path_no_dropped b [] c h1
            · exact pyUrlparse_path_no_dropped u _ c h1
            · rw [h1]; decide

/-- C9 (amended): for a base URL that parses to a canonical absolute http(s) URL with a
nonempty netloc and no fragment, normalize_url strips fragments (the result contains no
'#') and is idempotent for every href. -/
theorem c9_normalize_strips_and_idempotent (base href : String)
    (hbs : (pyUrlparse base.data []).scheme = 'h' :: 't' :: 't' :: 'p' :: [] ∨
      (pyUrlparse base.data []).scheme = 'h' :: 't' :: 't' :: 'p' :: 's' :: [])
    (hbn : (pyUrlparse base.data []).netloc ≠ [])
    (hbh : '#' ∉ base.data)
    (hcanon : pyUrlunparse (pyUrlparse base.data []).scheme (pyUrlparse base.data []).netloc
      (pyUrlparse base.data []).path (pyUrlparse base.data []).params
      (pyUrlparse base.data []).query (pyUrlparse base.data []).fragment = base.data)
    (hbBr : '[' ∉ base.data ∧ ']' ∉ base.data)
    (hhBr : '[' ∉ href.data ∧ ']' ∉ href.data) :
    '#' ∉ (normalize_url base href).data ∧
    normalize_url base (normalize_url base href) = normalize_url base href := by
  have huh : '#' ∉ href.data.takeWhile (· != '#') := by
    intro hc
    have := List.mem_takeWhile_imp hc
    simp at this
  obtain ⟨h1, h2⟩ := pyUrljoin_strip_props base.data (href.data.takeWhile (· != '#'))
    hbs hbn hbh hcanon huh
  have hdata : (normalize_url base href).data =
      pyUrljoin base.data (href.data.takeWhile (· != '#')) := rfl
  refine ⟨by rw [hdata]; exact h1, ?_⟩
  have hstrip : (normalize_url base href).data.takeWhile (· != '#') =
      (normalize_url base href).data := by
    rw [hdata]
    refine takeWhile_of_all _ _ ?_
    intro c hc
    simp only [bne_iff_ne, ne_eq]
    intro he
    subst he
    exact h1 hc
  show String.mk (pyUrljoin base.data ((normalize_url base href).data.takeWhile (· != '#'))) =
    normalize_url base href
  rw [hstrip, hdata, h2]
  rfl

theorem c9_normalize_strips_and_idempotent_witness :
    '#' ∉ (normalize_url "http://kako.mn/" "docs/page#frag").data ∧
    normalize_url "http://kako.mn/" (normalize_url "http://kako.mn/" "docs/page#frag") =
      normalize_url "http://kako.mn/" "docs/page#frag" :=
  c9_normalize_strips_and_idempotent "http://kako.mn/" "docs/page#frag"
    (Or.inl (by decide)) (by decide) (by decide) (by decide) (by decide) (by decide)

theorem c9_fragment_counterexample :
    '#' ∈ (normalize_url "http://kako.mn/a#s" "#x").data ∧
    normalize_url "http://kako.mn/a#s" (normalize_url "http://kako.mn/a#s" "#x") ≠
      normalize_url "http://kako.mn/a#s" "#x" := by
  decide
